import Mathlib

/-!
# Red-black tree container (`src/RB_Tree.h`)

A shallow embedding of the class template `RB_Tree<keyType>` and the
verification of its contract.

## How the pointer structure is embedded

The C++ tree is a graph of heap nodes with `parent`, `left` and `right`
links and one sentinel node `NIL` per tree.  Here

* a subtree is a value of the inductive type `RB_Node α`; the constructor
  `RB_Node.NIL` is the sentinel (its colour is `BLACK`, its other fields are
  never read by a defined execution);
* a pointer to a node of the tree is a *cursor*: the subtree rooted at that
  node together with the list of `Frame`s met when following the `parent`
  links up to the root.  A frame records the ancestor's colour and key, which
  of its two links leads down to the cursor, and its other child.  So
  `x->parent` is the head of the list, `x->parent->parent` the second frame,
  a pointer comparison such as `x == x->parent->left` is a test on the
  constructor of the head frame, and `root` is `zip x path`;
* reading a link or key *through* the sentinel (for example
  `NIL->left->nodeColor`) is undefined in C++; together with the exception
  thrown by the rotations this is the failure `none` of the `Option` results;
* the `while` loops of `insertFixup`, `deleteFixup` and `destroyTree` are
  iterated by a fuel counter supplied by their callers; the theorems on
  `insert`, `remove` and `destroyTree` show that this fuel is enough;
* the two `unsigned` counters are natural numbers (wrap-around of the
  counters would need `2^32` live nodes and is outside this development).

Keys are taken from any linearly ordered type (`operator<`, `operator!=` and
`operator==` of `keyType`).
-/

namespace RB

/-- Enumerated type `Color` of the source. -/
inductive Color where
  | RED
  | BLACK
  deriving DecidableEq

open Color

/-- A subtree: the sentinel `NIL`, or a node with the fields of the struct
`RB_Node` (the `parent` link is kept by the cursor, see `Frame`). -/
inductive RB_Node (α : Type) where
  | NIL : RB_Node α
  | node (nodeColor : Color) (left : RB_Node α) (key : α) (right : RB_Node α) : RB_Node α
  deriving DecidableEq

open RB_Node

/-- One `parent` link seen from below: `inLeft c k r` says that the cursor is
the `left` child of a node of colour `c`, key `k` and right child `r`;
`inRight c l k` that it is the `right` child of a node with left child `l`. -/
inductive Frame (α : Type) where
  | inLeft (nodeColor : Color) (key : α) (right : RB_Node α) : Frame α
  | inRight (nodeColor : Color) (left : RB_Node α) (key : α) : Frame α
  deriving DecidableEq

/-- The members of the class `RB_Tree`: `root` and the two counters
(`NIL` is the constructor `RB_Node.NIL`). -/
structure RB_Tree (α : Type) where
  root : RB_Node α
  numRedNodes : Nat
  numBlackNodes : Nat
  deriving DecidableEq

variable {α : Type}

/-- The field `nodeColor`; the sentinel is coloured `BLACK` by the constructors. -/
def RB_Node.color : RB_Node α → Color
  | NIL => BLACK
  | node c _ _ _ => c

/-- The assignment `p->nodeColor = Color::BLACK` (on the sentinel it changes nothing). -/
def RB_Node.setBlack : RB_Node α → RB_Node α
  | NIL => NIL
  | node _ l k r => node BLACK l k r

/-- Colour of the ancestor described by a frame. -/
def Frame.color : Frame α → Color
  | Frame.inLeft c _ _ => c
  | Frame.inRight c _ _ => c

/-- The ancestor described by a frame, with the subtree `t` as the child on the cursor side. -/
def Frame.plug : Frame α → RB_Node α → RB_Node α
  | Frame.inLeft c k r, t => node c t k r
  | Frame.inRight c l k, t => node c l k t

/-- The whole tree (`root`) seen from a cursor: follow the `parent` links to the top. -/
def zip : RB_Node α → List (Frame α) → RB_Node α
  | t, [] => t
  | t, f :: rest => zip (f.plug t) rest

/-- Colour read by `x->parent->nodeColor`: the parent of the root is the sentinel. -/
def parentColor : List (Frame α) → Color
  | [] => BLACK
  | f :: _ => f.color

section Source

variable [LinearOrder α]

/-- The function `RB_Tree::search`: descent from `traverse` until the sentinel or a node
holding `keyValue` is met.  The result is the cursor of that node. -/
def search (keyValue : α) : RB_Node α → List (Frame α) → RB_Node α × List (Frame α)
  | NIL, path => (NIL, path)
  | node c l k r, path =>
    if keyValue ≠ k then
      if keyValue < k then search keyValue l (Frame.inLeft c k r :: path)
      else search keyValue r (Frame.inRight c l k :: path)
    else (node c l k r, path)

/-- The function `RB_Tree::minimum`: follow `left` links while the left child is not the
sentinel.  (It is only called on real nodes.) -/
def minimum : RB_Node α → List (Frame α) → RB_Node α × List (Frame α)
  | NIL, path => (NIL, path)
  | node c NIL k r, path => (node c NIL k r, path)
  | node c (node lc ll lk lr) k r, path => minimum (node lc ll lk lr) (Frame.inLeft c k r :: path)

/-- The function `RB_Tree::leftRotate`, on the subtree rooted at the pivot (the link from
the pivot's parent, or `root`, then leads to the result).  A sentinel pivot is a no-op; a
sentinel right child throws. -/
def leftRotate : RB_Node α → Option (RB_Node α)
  | NIL => some NIL
  | node _ _ _ NIL => none
  | node c a k (node prcColor prcLeft prcKey prcRight) =>
    some (node prcColor (node c a k prcLeft) prcKey prcRight)

/-- The function `RB_Tree::rightRotate`, mirror image of `leftRotate`. -/
def rightRotate : RB_Node α → Option (RB_Node α)
  | NIL => some NIL
  | node _ NIL _ _ => none
  | node c (node plcColor plcLeft plcKey plcRight) k b =>
    some (node plcColor plcLeft plcKey (node c plcRight k b))

/-- One iteration of the `while` loop of `RB_Tree::insertFixup`, entered with
`insertedNode->parent->nodeColor == RED`.  The four clauses are the two sides of the parent
under the grandparent times the two sides of `insertedNode` under the parent. -/
def insertFixupStep (x : RB_Node α) (path : List (Frame α)) (nr nb : Nat) :
    Option (RB_Node α × List (Frame α) × Nat × Nat) :=
  match path with
  -- parent is the left child of the grandparent, insertedNode the left child of the parent
  | Frame.inLeft _ pk pr :: Frame.inLeft _ gk rightUncle :: rest =>
    if rightUncle.color = RED then
      -- Case 1: recolour, continue from the grandparent
      some (node RED (node BLACK x pk pr) gk rightUncle.setBlack, rest, nr - 1, nb + 1)
    else
      -- Case 3: recolour parent and grandparent, rotate right about the grandparent
      match rightRotate (node RED (node BLACK x pk pr) gk rightUncle) with
      | some (node c l k r) => some (l, Frame.inLeft c k r :: rest, nr, nb)
      | _ => none
  -- parent is the left child of the grandparent, insertedNode the right child of the parent
  | Frame.inRight pc pl pk :: Frame.inLeft _ gk rightUncle :: rest =>
    if rightUncle.color = RED then
      some (node RED (node BLACK pl pk x) gk rightUncle.setBlack, rest, nr - 1, nb + 1)
    else
      -- Case 2: insertedNode = insertedNode->parent; leftRotate(insertedNode)
      match leftRotate (node pc pl pk x) with
      | some (node _ x2 k2 r2) =>
        -- Case 3 with the old parent x2 as insertedNode, now the left child of the old x
        match rightRotate (node RED (node BLACK x2 k2 r2) gk rightUncle) with
        | some (node c l k r) => some (l, Frame.inLeft c k r :: rest, nr, nb)
        | _ => none
      | _ => none
  -- parent is the right child of the grandparent, insertedNode the left child of the parent
  | Frame.inLeft pc pk pr :: Frame.inRight _ leftUncle gk :: rest =>
    if leftUncle.color = RED then
      some (node RED leftUncle.setBlack gk (node BLACK x pk pr), rest, nr - 1, nb + 1)
    else
      -- Case 2: insertedNode = insertedNode->parent; rightRotate(insertedNode)
      match rightRotate (node pc x pk pr) with
      | some (node _ l2 k2 x2) =>
        -- Case 3
        match leftRotate (node RED leftUncle gk (node BLACK l2 k2 x2)) with
        | some (node c l k r) => some (r, Frame.inRight c l k :: rest, nr, nb)
        | _ => none
      | _ => none
  -- parent is the right child of the grandparent, insertedNode the right child of the parent
  | Frame.inRight _ pl pk :: Frame.inRight _ leftUncle gk :: rest =>
    if leftUncle.color = RED then
      some (node RED leftUncle.setBlack gk (node BLACK pl pk x), rest, nr - 1, nb + 1)
    else
      match leftRotate (node RED leftUncle gk (node BLACK pl pk x)) with
      | some (node c l k r) => some (r, Frame.inRight c l k :: rest, nr, nb)
      | _ => none
  -- a RED parent without a grandparent: the source reads the links of the sentinel
  | _ => none

/-- The `while` loop of `RB_Tree::insertFixup`; at exit the cursor is closed up to `root`. -/
def insertFixupLoop : Nat → RB_Node α → List (Frame α) → Nat → Nat →
    Option (RB_Node α × Nat × Nat)
  | 0, _, _, _, _ => none
  | fuel + 1, x, path, nr, nb =>
    if parentColor path = RED then
      match insertFixupStep x path nr nb with
      | some (x2, path2, nr2, nb2) => insertFixupLoop fuel x2 path2 nr2 nb2
      | none => none
    else some (zip x path, nr, nb)

/-- The function `RB_Tree::insertFixup` run at the cursor of the node just linked in:
count the new RED node, run the loop, then force the root BLACK (and move one unit from the
red to the black counter if the root was RED). -/
def insertFixup (insertedNode : RB_Node α) (path : List (Frame α)) (nr nb : Nat) :
    Option (RB_Tree α) :=
  match insertFixupLoop (path.length + 1) insertedNode path (nr + 1) nb with
  | some (root, nr2, nb2) =>
    if root.color = RED then some ⟨root.setBlack, nr2 - 1, nb2 + 1⟩
    else some ⟨root.setBlack, nr2, nb2⟩
  | none => none

/-- The descent loop of `RB_Tree::RB_insert`: from `traverse` down to a sentinel link; the
head of the resulting list is `trailing`. -/
def RB_insert_descend (key : α) : RB_Node α → List (Frame α) → List (Frame α)
  | NIL, path => path
  | node c l k r, path =>
    if key < k then RB_insert_descend key l (Frame.inLeft c k r :: path)
    else RB_insert_descend key r (Frame.inRight c l k :: path)

/-- The linking `if` of `RB_Tree::RB_insert`: `insertedNode` becomes the root when
`trailing` is the sentinel, else `trailing->left` or `trailing->right` according to the key
comparison (the link written is the one that held the sentinel where the descent stopped). -/
def RB_insert_link (key : α) : List (Frame α) → List (Frame α)
  | [] => []
  | Frame.inLeft c k r :: rest =>
    if key < k then Frame.inLeft c k r :: rest else Frame.inRight c NIL k :: rest
  | Frame.inRight c l k :: rest =>
    if key < k then Frame.inLeft c k NIL :: rest else Frame.inRight c l k :: rest

/-- The function `RB_Tree::RB_insert`: find `trailing`, link `insertedNode` under it, then
`insertFixup`. -/
def RB_insert (t : RB_Tree α) (insertedNode : RB_Node α) : Option (RB_Tree α) :=
  match insertedNode with
  | NIL => none
  | node _ _ key _ =>
    insertFixup insertedNode (RB_insert_link key (RB_insert_descend key t.root []))
      t.numRedNodes t.numBlackNodes

/-- The public function `RB_Tree::insert`: a new RED node with sentinel children. -/
def insert (x : α) (t : RB_Tree α) : Option (RB_Tree α) :=
  RB_insert t (node RED NIL x NIL)

/-- One iteration of the `while` loop of `RB_Tree::deleteFixup`, entered with `x != root`
and `x` BLACK.  `w` is the sibling of `x`. -/
def deleteFixupStep (x : RB_Node α) (path : List (Frame α)) (nr nb : Nat) :
    Option (RB_Node α × List (Frame α) × Nat × Nat) :=
  match path with
  | [] => none
  -- x == x->parent->left
  | Frame.inLeft pc pk w :: rest =>
    -- Case 1: w RED; recolour w and the parent, leftRotate(x->parent), w = x->parent->right.
    -- Gives the colour and key of x->parent, the new w and the frames above x->parent.
    let afterCase1 : Option (Color × α × RB_Node α × List (Frame α)) :=
      if w.color = RED then
        match leftRotate (node RED x pk w.setBlack) with
        | some (node c (node c2 _ k2 w2) k r) => some (c2, k2, w2, Frame.inLeft c k r :: rest)
        | _ => none
      else some (pc, pk, w, rest)
    match afterCase1 with
    | some (pc, pk, node wc wl wk wr, rest) =>
      if wl.color = BLACK ∧ wr.color = BLACK then
        -- Case 2: w RED, x = x->parent
        some (node pc x pk (node RED wl wk wr), rest, nr + 1, nb - 1)
      else
        -- Case 3: w->right BLACK; recolour, rightRotate(w), w = x->parent->right
        let afterCase3 : Option (RB_Node α) :=
          if wr.color = BLACK then rightRotate (node RED wl.setBlack wk wr)
          else some (node wc wl wk wr)
        match afterCase3 with
        | some (node _ wl wk wr) =>
          -- Case 4: recolour, leftRotate(x->parent), x = root
          match leftRotate (node BLACK x pk (node pc wl wk wr.setBlack)) with
          | some t => some (zip t rest, [], nr - 1, nb + 1)
          | none => none
        | _ => none
    -- w is the sentinel: w->left is read through the sentinel
    | _ => none
  -- x == x->parent->right
  | Frame.inRight pc w pk :: rest =>
    let afterCase1 : Option (Color × α × RB_Node α × List (Frame α)) :=
      if w.color = RED then
        match rightRotate (node RED w.setBlack pk x) with
        | some (node c l k (node c2 w2 k2 _)) => some (c2, k2, w2, Frame.inRight c l k :: rest)
        | _ => none
      else some (pc, pk, w, rest)
    match afterCase1 with
    | some (pc, pk, node wc wl wk wr, rest) =>
      if wr.color = BLACK ∧ wl.color = BLACK then
        some (node pc (node RED wl wk wr) pk x, rest, nr + 1, nb - 1)
      else
        let afterCase3 : Option (RB_Node α) :=
          if wl.color = BLACK then leftRotate (node RED wl wk wr.setBlack)
          else some (node wc wl wk wr)
        match afterCase3 with
        | some (node _ wl wk wr) =>
          match rightRotate (node BLACK (node pc wl.setBlack wk wr) pk x) with
          | some t => some (zip t rest, [], nr - 1, nb + 1)
          | none => none
        | _ => none
    | _ => none

/-- The `while` loop of `RB_Tree::deleteFixup` (`x != root` is `path ≠ []`). -/
def deleteFixupLoop : Nat → RB_Node α → List (Frame α) → Nat → Nat →
    Option (RB_Node α × List (Frame α) × Nat × Nat)
  | 0, _, _, _, _ => none
  | fuel + 1, x, path, nr, nb =>
    if path ≠ [] ∧ x.color = BLACK then
      match deleteFixupStep x path nr nb with
      | some (x2, path2, nr2, nb2) => deleteFixupLoop fuel x2 path2 nr2 nb2
      | none => none
    else some (x, path, nr, nb)

/-- The function `RB_Tree::deleteFixup` run at the cursor `x`: the loop, then `x` is
forced BLACK with the counter adjustment.  The result is `root` and the counters. -/
def deleteFixup (x : RB_Node α) (path : List (Frame α)) (nr nb : Nat) : Option (RB_Tree α) :=
  match deleteFixupLoop (path.length + 1) x path nr nb with
  | some (x2, path2, nr2, nb2) =>
    if x2.color ≠ BLACK then some ⟨zip x2.setBlack path2, nr2 - 1, nb2 + 1⟩
    else some ⟨zip x2.setBlack path2, nr2, nb2⟩
  | none => none

/-- The function `RB_Tree::RB_delete` at the cursor of `nodeToDelete` (a real node). -/
def RB_delete (nodeToDelete : RB_Node α) (path : List (Frame α)) (nr nb : Nat) :
    Option (RB_Tree α) :=
  match nodeToDelete with
  | NIL => none
  | node zc NIL _ zr =>
    -- replacement = nodeToDelete->right; transplant(nodeToDelete, nodeToDelete->right)
    let nr1 := if zc = BLACK then nr else nr - 1
    let nb1 := if zc = BLACK then nb - 1 else nb
    if zc = BLACK then deleteFixup zr path nr1 nb1 else some ⟨zip zr path, nr1, nb1⟩
  | node zc (node lc ll lk lr) _ NIL =>
    -- replacement = nodeToDelete->left; transplant(nodeToDelete, nodeToDelete->left)
    let nr1 := if zc = BLACK then nr else nr - 1
    let nb1 := if zc = BLACK then nb - 1 else nb
    if zc = BLACK then deleteFixup (node lc ll lk lr) path nr1 nb1
    else some ⟨zip (node lc ll lk lr) path, nr1, nb1⟩
  | node zc (node lc ll lk lr) _ (node rc rl rk rr) =>
    -- y = minimum(nodeToDelete->right)
    match minimum (node rc rl rk rr) [] with
    | (node yc _ yk yr, ypath) =>
      -- y takes the place, the left subtree and the colour of nodeToDelete;
      -- replacement = y->right hangs where y was (directly under y if y->parent == nodeToDelete)
      let xpath := if ypath = [] then Frame.inRight zc (node lc ll lk lr) yk :: path
        else ypath ++ Frame.inRight zc (node lc ll lk lr) yk :: path
      -- y changes colour to the colour of the node being deleted
      let nr0 := if yc ≠ zc then (if zc = BLACK then nr - 1 else nr + 1) else nr
      let nb0 := if yc ≠ zc then (if zc = BLACK then nb + 1 else nb - 1) else nb
      -- the counter of the deleted node
      let nr1 := if zc = BLACK then nr0 else nr0 - 1
      let nb1 := if zc = BLACK then nb0 - 1 else nb0
      if yc = BLACK then deleteFixup yr xpath nr1 nb1 else some ⟨zip yr xpath, nr1, nb1⟩
    | (NIL, _) => none

/-- The public function `RB_Tree::remove`: the Boolean result and the tree afterwards. -/
def remove (x : α) (t : RB_Tree α) : Option (Bool × RB_Tree α) :=
  match search x t.root [] with
  | (NIL, _) => some (false, t)
  | (node c l k r, path) =>
    match RB_delete (node c l k r) path t.numRedNodes t.numBlackNodes with
    | some t2 => some (true, t2)
    | none => none

/-- The public function `RB_Tree::containsKey`. -/
def containsKey (keyValue : α) (t : RB_Tree α) : Bool :=
  match search keyValue t.root [] with
  | (NIL, _) => false
  | (node _ _ _ _, _) => true

end Source

/-- The default constructor: `root = NIL`, both counters 0. -/
def RB_Tree.empty : RB_Tree α := ⟨NIL, 0, 0⟩

/-- The public function `RB_Tree::isEmpty`. -/
def isEmpty (t : RB_Tree α) : Bool :=
  match t.root with
  | NIL => true
  | node _ _ _ _ => false

/-- The public function `RB_Tree::getNumRedNodes`. -/
def getNumRedNodes (t : RB_Tree α) : Nat := t.numRedNodes

/-- The public function `RB_Tree::getNumBlackNodes`. -/
def getNumBlackNodes (t : RB_Tree α) : Nat := t.numBlackNodes

/-- The public function `RB_Tree::getNumNodes`. -/
def getNumNodes (t : RB_Tree α) : Nat := t.numRedNodes + t.numBlackNodes

/-- The function `RB_Tree::maximum`. -/
def maximum (a b : Int) : Int := if a > b then a else b

/-- The function `RB_Tree::calculateSubtreeHeight`. -/
def calculateSubtreeHeight : RB_Node α → Int
  | NIL => -1
  | node _ l _ r => maximum (calculateSubtreeHeight l) (calculateSubtreeHeight r) + 1

/-- The public function `RB_Tree::getTreeHeight`. -/
def getTreeHeight (t : RB_Tree α) : Int := calculateSubtreeHeight t.root

/-- The keys written by `RB_Tree::ascending` (left, node, right), as a list. -/
def ascending : RB_Node α → List α
  | NIL => []
  | node _ l k r => ascending l ++ k :: ascending r

/-! ## The invariants of the specification -/

/-- Number of BLACK real nodes on the leftmost path from `t` down to the sentinel; when
`balanced t` holds this is the black-height of every path. -/
def blackHeight : RB_Node α → Nat
  | NIL => 0
  | node c l _ _ => blackHeight l + (if c = BLACK then 1 else 0)

/-- Invariant 4 in the form "both children have equal black-height, at every node". -/
def balanced : RB_Node α → Prop
  | NIL => True
  | node _ l _ r => blackHeight l = blackHeight r ∧ balanced l ∧ balanced r

/-- Invariant 3: a RED node has no RED child, at every node. -/
def noRedRed : RB_Node α → Prop
  | NIL => True
  | node c l _ r => (c = RED → l.color = BLACK ∧ r.color = BLACK) ∧ noRedRed l ∧ noRedRed r

/-- For every path from `t` down to a sentinel, the number of BLACK real nodes on it. -/
def pathBlackCounts : RB_Node α → List Nat
  | NIL => [0]
  | node c l _ r =>
    (pathBlackCounts l ++ pathBlackCounts r).map (fun n => n + (if c = BLACK then 1 else 0))

/-- All the nodes of a tree, each given as the subtree rooted at it. -/
def subtrees : RB_Node α → List (RB_Node α)
  | NIL => []
  | node c l k r => node c l k r :: (subtrees l ++ subtrees r)

/-- Invariant 4 as worded in the specification: from any given node, every path down to a
sentinel passes through the same number of BLACK nodes. -/
def equalBlackPaths (t : RB_Node α) : Prop :=
  ∀ n ∈ subtrees t, ∀ a ∈ pathBlackCounts n, ∀ b ∈ pathBlackCounts n, a = b

/-- The red-black invariants: root BLACK, sentinel BLACK, no RED node with a RED child,
equal black-height on both sides of every node. -/
structure RBInvariants (t : RB_Node α) : Prop where
  rootBlack : t.color = BLACK
  sentinelBlack : (NIL : RB_Node α).color = BLACK
  redRule : noRedRed t
  blackRule : balanced t

/-- The red-black invariants with invariant 4 worded over paths. -/
structure RBPathInvariants (t : RB_Node α) : Prop where
  rootBlack : t.color = BLACK
  sentinelBlack : (NIL : RB_Node α).color = BLACK
  redRule : noRedRed t
  blackRule : equalBlackPaths t

/-- Number of RED nodes reachable from `t`. -/
def countRed : RB_Node α → Nat
  | NIL => 0
  | node c l _ r => countRed l + countRed r + (if c = RED then 1 else 0)

/-- Number of BLACK real nodes reachable from `t`. -/
def countBlack : RB_Node α → Nat
  | NIL => 0
  | node c l _ r => countBlack l + countBlack r + (if c = BLACK then 1 else 0)

/-- Number of real nodes reachable from `t`. -/
def size : RB_Node α → Nat
  | NIL => 0
  | node _ l _ r => size l + size r + 1

/-- The counters are exact: they are the numbers of RED and of BLACK nodes reachable
from `root`. -/
def countersExact (t : RB_Tree α) : Prop :=
  t.numRedNodes = countRed t.root ∧ t.numBlackNodes = countBlack t.root

/-- The BST ordering of invariant 5: keys in the left subtree are `≤` the node's key, keys in
the right subtree are `≥` it, at every node. -/
def ordered [LinearOrder α] : RB_Node α → Prop
  | NIL => True
  | node _ l k r =>
    (∀ x ∈ ascending l, x ≤ k) ∧ (∀ x ∈ ascending r, k ≤ x) ∧ ordered l ∧ ordered r

/-- A valid tree: red-black invariants, BST ordering and exact counters. -/
structure Valid [LinearOrder α] (t : RB_Tree α) : Prop where
  rb : RBInvariants t.root
  bst : ordered t.root
  counters : countersExact t

/-! ## Invariants of a cursor -/

/-- The other child of the ancestor described by a frame. -/
def Frame.other : Frame α → RB_Node α
  | Frame.inLeft _ _ r => r
  | Frame.inRight _ l _ => l

/-- Contribution of an ancestor to the black-height. -/
def Frame.blackUnit (f : Frame α) : Nat := if f.color = BLACK then 1 else 0

/-- The frames are balanced around a hole of black-height `h`. -/
def pathBal : List (Frame α) → Nat → Prop
  | [], _ => True
  | f :: rest, h => blackHeight f.other = h ∧ balanced f.other ∧ pathBal rest (h + f.blackUnit)

/-- No RED ancestor has a RED parent or a RED other child. -/
def pathRR : List (Frame α) → Prop
  | [] => True
  | f :: rest =>
    noRedRed f.other ∧ (f.color = RED → f.other.color = BLACK ∧ parentColor rest = BLACK) ∧
      pathRR rest

/-- Colour of the root of `zip t path` when `t` has colour `c`. -/
def topColor : List (Frame α) → Color → Color
  | [], c => c
  | f :: rest, _ => topColor rest f.color

/-- Keys written before those of the cursor by an in-order traversal of the whole tree. -/
def pathLeft : List (Frame α) → List α
  | [] => []
  | Frame.inLeft _ _ _ :: rest => pathLeft rest
  | Frame.inRight _ l k :: rest => pathLeft rest ++ (ascending l ++ [k])

/-- Keys written after those of the cursor by an in-order traversal of the whole tree. -/
def pathRight : List (Frame α) → List α
  | [] => []
  | Frame.inLeft _ k r :: rest => (k :: ascending r) ++ pathRight rest
  | Frame.inRight _ _ _ :: rest => pathRight rest

/-- RED ancestors on a path. -/
def pathRed : List (Frame α) → Nat
  | [] => 0
  | f :: rest => countRed f.other + (if f.color = RED then 1 else 0) + pathRed rest

/-- BLACK ancestors on a path. -/
def pathBlack : List (Frame α) → Nat
  | [] => 0
  | f :: rest => countBlack f.other + (if f.color = BLACK then 1 else 0) + pathBlack rest

/-- A cursor inside a tree that satisfies the red-black invariants. -/
structure CursorInv (x : RB_Node α) (path : List (Frame α)) : Prop where
  bal : balanced x
  rr : noRedRed x
  pbal : pathBal path (blackHeight x)
  prr : pathRR path
  edge : parentColor path = RED → x.color = BLACK
  top : topColor path x.color = BLACK

/-- Loop invariant of `insertFixup`: the only possible violation is a RED cursor under a
RED parent (and, at the top, a RED root). -/
structure InsertInv (x : RB_Node α) (path : List (Frame α)) : Prop where
  red : x.color = RED
  bal : balanced x
  rr : noRedRed x
  pbal : pathBal path (blackHeight x)
  prr : pathRR path
  top : topColor path BLACK = BLACK

/-- Loop invariant of `deleteFixup`: the cursor is one BLACK node short. -/
structure DeleteInv (x : RB_Node α) (path : List (Frame α)) : Prop where
  bal : balanced x
  rr : noRedRed x.setBlack
  pbal : pathBal path (blackHeight x + 1)
  prr : pathRR path
  top : topColor path BLACK = BLACK


/-! ## Copying, destruction and comparison -/

section Copy

variable [LinearOrder α]

/-- The linking `if` of `RB_Tree::copyTree`: the freshly allocated node `copyTo` is hung
under `copyTo_parent` on the side given by the key comparison.  Nothing is linked when no
node was allocated (`copyFrom` was the sentinel). -/
def copyTree_link (copyTo_parent copyTo : RB_Node α) : RB_Node α :=
  match copyTo_parent, copyTo with
  | node pc pl pk pr, node c l k r =>
    if k < pk then node pc (node c l k r) pk pr else node pc pl pk (node c l k r)
  | p, _ => p

/-- The function `RB_Tree::copyTree`: the subtree that ends up rooted at the node allocated
for `copyFrom` (the sentinel when `copyFrom` is the sentinel).  The new node gets the key
and colour of `copyFrom` and sentinel children; then the copies of the left and of the right
subtree of `copyFrom` are made and linked under it, each by `copyTree_link`.  (For the first
node the source also writes a child link of the destination sentinel, which is never read.) -/
def copyTree : RB_Node α → RB_Node α
  | NIL => NIL
  | node c l k r =>
    copyTree_link (copyTree_link (node c NIL k NIL) (copyTree l)) (copyTree r)

/-- The copy constructor `RB_Tree(const RB_Tree&)`: counters copied verbatim, nodes by
`copyTree`. -/
def copyConstruct (right : RB_Tree α) : RB_Tree α :=
  ⟨copyTree right.root, right.numRedNodes, right.numBlackNodes⟩

/-- The loop of `RB_Tree::destroyTree`: while the root is a real node, `RB_delete(root)`. -/
def destroyTreeLoop : Nat → RB_Tree α → Option (RB_Tree α)
  | 0, _ => none
  | fuel + 1, t =>
    match t.root with
    | NIL => some t
    | node c l k r =>
      match RB_delete (node c l k r) [] t.numRedNodes t.numBlackNodes with
      | some t2 => destroyTreeLoop fuel t2
      | none => none

/-- The public function `RB_Tree::destroyTree` (one loop test per node, and a last one). -/
def destroyTree (t : RB_Tree α) : Option (RB_Tree α) :=
  destroyTreeLoop (size t.root + 1) t

/-- The assignment `operator=`; `self` says that both operands are the same object. -/
def operator_assign (self : Bool) (this right : RB_Tree α) : Option (RB_Tree α) :=
  if self then some this
  else
    match destroyTree this with
    | some _ => some ⟨copyTree right.root, right.numRedNodes, right.numBlackNodes⟩
    | none => none

/-- The test `p == NIL` on a link. -/
def RB_Node.isNIL : RB_Node α → Bool
  | NIL => true
  | node _ _ _ _ => false

/-- The function `RB_Tree::compareSubtrees` on two real nodes (it is never called on a
sentinel, whose key it would read). -/
def compareSubtrees : RB_Node α → RB_Node α → Bool
  | node _ l1 k1 r1, node _ l2 k2 r2 =>
    (decide (k1 = k2) &&
      ((l1.isNIL && l2.isNIL) || (!l1.isNIL && !l2.isNIL && compareSubtrees l1 l2))) &&
      ((r1.isNIL && r2.isNIL) || (!r1.isNIL && !r2.isNIL && compareSubtrees r1 r2))
  | _, _ => false

/-- The comparison `operator==`; `self` says that both operands are the same object. -/
def operator_eq (self : Bool) (this right : RB_Tree α) : Bool :=
  if !self then
    (decide (this.numRedNodes = right.numRedNodes) &&
      decide (this.numBlackNodes = right.numBlackNodes)) &&
      ((this.root.isNIL && right.root.isNIL) ||
        (!this.root.isNIL && !right.root.isNIL && compareSubtrees this.root right.root))
  else true

/-- The comparison `operator!=`. -/
def operator_ne (self : Bool) (this right : RB_Tree α) : Bool :=
  !(operator_eq self this right)

/-- A call of one of the two mutating public functions. -/
inductive Op (α : Type) where
  | insert (x : α) : Op α
  | remove (x : α) : Op α

/-- The tree after one call. -/
def applyOp (t : RB_Tree α) : Op α → Option (RB_Tree α)
  | Op.insert x => insert x t
  | Op.remove x =>
    match remove x t with
    | some (_, t2) => some t2
    | none => none

/-- The tree after a sequence of calls, made from left to right. -/
def runOps : List (Op α) → RB_Tree α → Option (RB_Tree α)
  | [], t => some t
  | op :: rest, t =>
    match applyOp t op with
    | some t2 => runOps rest t2
    | none => none

/-- The tree built from the empty tree by a sequence of `insert` and `remove` calls. -/
def build (ops : List (Op α)) : Option (RB_Tree α) := runOps ops RB_Tree.empty

end Copy

/-! ## Decision procedures for the invariants -/

/-- Deciding `balanced`. -/
def balanced.dec : (t : RB_Node α) → Decidable (balanced t)
  | NIL => isTrue trivial
  | node _ l _ r =>
    match balanced.dec l, balanced.dec r with
    | isTrue hl, isTrue hr =>
      if h : blackHeight l = blackHeight r then isTrue ⟨h, hl, hr⟩
      else isFalse (fun hb => h hb.1)
    | isFalse hl, _ => isFalse (fun hb => hl hb.2.1)
    | _, isFalse hr => isFalse (fun hb => hr hb.2.2)

instance (t : RB_Node α) : Decidable (balanced t) := balanced.dec t

/-- Deciding `noRedRed`. -/
def noRedRed.dec : (t : RB_Node α) → Decidable (noRedRed t)
  | NIL => isTrue trivial
  | node c l _ r =>
    match noRedRed.dec l, noRedRed.dec r with
    | isTrue hl, isTrue hr =>
      if h : c = RED → l.color = BLACK ∧ r.color = BLACK then isTrue ⟨h, hl, hr⟩
      else isFalse (fun hb => h hb.1)
    | isFalse hl, _ => isFalse (fun hb => hl hb.2.1)
    | _, isFalse hr => isFalse (fun hb => hr hb.2.2)

instance (t : RB_Node α) : Decidable (noRedRed t) := noRedRed.dec t

/-- Deciding `ordered`. -/
def ordered.dec [LinearOrder α] : (t : RB_Node α) → Decidable (ordered t)
  | NIL => isTrue trivial
  | node _ l k r =>
    match ordered.dec l, ordered.dec r with
    | isTrue hl, isTrue hr =>
      if h : (∀ x ∈ ascending l, x ≤ k) ∧ (∀ x ∈ ascending r, k ≤ x) then
        isTrue ⟨h.1, h.2, hl, hr⟩
      else isFalse (fun hb => h ⟨hb.1, hb.2.1⟩)
    | isFalse hl, _ => isFalse (fun hb => hl hb.2.2.1)
    | _, isFalse hr => isFalse (fun hb => hr hb.2.2.2)

instance [LinearOrder α] (t : RB_Node α) : Decidable (ordered t) := ordered.dec t

instance (t : RB_Node α) : Decidable (equalBlackPaths t) := by
  unfold equalBlackPaths; infer_instance

instance (t : RB_Node α) : Decidable (RBInvariants t) :=
  decidable_of_iff (t.color = BLACK ∧ (NIL : RB_Node α).color = BLACK ∧ noRedRed t ∧ balanced t)
    ⟨fun h => ⟨h.1, h.2.1, h.2.2.1, h.2.2.2⟩, fun h => ⟨h.1, h.2, h.3, h.4⟩⟩

instance (t : RB_Node α) : Decidable (RBPathInvariants t) :=
  decidable_of_iff
    (t.color = BLACK ∧ (NIL : RB_Node α).color = BLACK ∧ noRedRed t ∧ equalBlackPaths t)
    ⟨fun h => ⟨h.1, h.2.1, h.2.2.1, h.2.2.2⟩, fun h => ⟨h.1, h.2, h.3, h.4⟩⟩

instance (t : RB_Tree α) : Decidable (countersExact t) := by
  unfold countersExact; infer_instance

instance [LinearOrder α] (t : RB_Tree α) : Decidable (Valid t) :=
  decidable_of_iff (RBInvariants t.root ∧ ordered t.root ∧ countersExact t)
    ⟨fun h => ⟨h.1, h.2.1, h.2.2⟩, fun h => ⟨h.1, h.2, h.3⟩⟩

/-! ## Union, rotation outcomes, leaf depths -/

section Union

variable [LinearOrder α]

/-- The function `RB_Tree::traverseInsert`: in-order walk (left, node, right) of the subtree
`traverse` of the other tree; the key of every node met is inserted into this tree by the
public `insert`. -/
def traverseInsert : RB_Node α → RB_Tree α → Option (RB_Tree α)
  | NIL, this => some this
  | node _ l k r, this =>
    match traverseInsert l this with
    | some t1 =>
      match insert k t1 with
      | some t2 => traverseInsert r t2
      | none => none
    | none => none

/-- The operator `operator+`: `sumTree` is copy-constructed from this tree, the keys of the
right operand are inserted into it, and `sumTree` is the result (the named local is the
returned object: the copy that a `return` of a local may make is elided). -/
def operator_plus (this right : RB_Tree α) : Option (RB_Tree α) :=
  traverseInsert right.root (copyConstruct this)

/-- The operator `operator+=`, that is `*this = (*this + right)`; the sum is a temporary,
never the same object as this tree. -/
def operator_plus_assign (this right : RB_Tree α) : Option (RB_Tree α) :=
  match operator_plus this right with
  | some sumTree => operator_assign false this sumTree
  | none => none

end Union

/-- How a rotation ends: by a normal return or by the `throw`; in both cases with the
subtree found at the pivot's place at that moment. -/
inductive RotateOutcome (α : Type) where
  | returned (subtree : RB_Node α) : RotateOutcome α
  | thrown (subtree : RB_Node α) : RotateOutcome α

/-- The function `RB_Tree::leftRotate` with the state it leaves behind.  The test of the
pivot's right child and its `throw` come before the first assignment, so at the throw the
subtree is as it was. -/
def leftRotate_outcome : RB_Node α → RotateOutcome α
  | NIL => RotateOutcome.returned NIL
  | node c a k NIL => RotateOutcome.thrown (node c a k NIL)
  | node c a k (node prcColor prcLeft prcKey prcRight) =>
    RotateOutcome.returned (node prcColor (node c a k prcLeft) prcKey prcRight)

/-- The function `RB_Tree::rightRotate` with the state it leaves behind. -/
def rightRotate_outcome : RB_Node α → RotateOutcome α
  | NIL => RotateOutcome.returned NIL
  | node c NIL k b => RotateOutcome.thrown (node c NIL k b)
  | node c (node plcColor plcLeft plcKey plcRight) k b =>
    RotateOutcome.returned (node plcColor plcLeft plcKey (node c plcRight k b))

/-- For every leaf (a real node with two sentinel children), the number of edges on the
path from the root down to it. -/
def leafDepths : RB_Node α → List Nat
  | NIL => []
  | node _ NIL _ NIL => [0]
  | node _ (node lc ll lk lr) _ r =>
    (leafDepths (node lc ll lk lr) ++ leafDepths r).map (fun d => d + 1)
  | node _ NIL _ (node rc rl rk rr) => (leafDepths (node rc rl rk rr)).map (fun d => d + 1)

/-- The number of edges on a longest path from the root down to a leaf. -/
def longestPath (t : RB_Node α) : Nat := (leafDepths t).foldr max 0

/-! ## Traversal output, coloured sequence, shape comparison -/

/-- Enumerated type `Order` of the source. -/
inductive Order where
  | ASC
  | DES
  deriving DecidableEq

/-- The keys written by `RB_Tree::descending` (right, node, left), as a list. -/
def descending : RB_Node α → List α
  | NIL => []
  | node _ l k r => descending r ++ k :: descending l

/-- The public function `RB_Tree::displayTree`: the keys written to the output, in the order
in which they are written.  (The last `else` of the source is not reached by a value of the
enumeration.) -/
def displayTree (ord : Order) (t : RB_Tree α) : List α :=
  match t.root with
  | NIL => []
  | node c l k r =>
    match ord with
    | Order.ASC => ascending (node c l k r)
    | Order.DES => descending (node c l k r)

/-- The in-order (left, node, right) sequence of (key, colour) pairs. -/
def ascendingColored : RB_Node α → List (α × Color)
  | NIL => []
  | node c l k r => ascendingColored l ++ (k, c) :: ascendingColored r

/-- Two trees have the same shape and equal keys at every corresponding position (the
colours are not looked at). -/
def sameShapeAndKeys : RB_Node α → RB_Node α → Prop
  | NIL, NIL => True
  | node _ l1 k1 r1, node _ l2 k2 r2 =>
    k1 = k2 ∧ sameShapeAndKeys l1 l2 ∧ sameShapeAndKeys r1 r2
  | NIL, node _ _ _ _ => False
  | node _ _ _ _, NIL => False

/-! # Verification -/

/-! ## Basic facts about colours and cursors -/

theorem Color.eq_black_of_ne_red {c : Color} (h : c ≠ RED) : c = BLACK := by
  cases c <;> simp_all

theorem Color.eq_red_of_ne_black {c : Color} (h : c ≠ BLACK) : c = RED := by
  cases c <;> simp_all

@[simp] theorem color_setBlack (t : RB_Node α) : t.setBlack.color = BLACK := by
  cases t <;> rfl

theorem setBlack_of_black {t : RB_Node α} (h : t.color = BLACK) : t.setBlack = t := by
  cases t with
  | NIL => rfl
  | node c l k r => simp only [RB_Node.color] at h; subst h; rfl

@[simp] theorem ascending_setBlack (t : RB_Node α) : ascending t.setBlack = ascending t := by
  cases t <;> rfl

@[simp] theorem balanced_setBlack (t : RB_Node α) : balanced t.setBlack ↔ balanced t := by
  cases t <;> simp [RB_Node.setBlack, balanced]

theorem noRedRed_setBlack {t : RB_Node α} (h : noRedRed t) : noRedRed t.setBlack := by
  cases t with
  | NIL => trivial
  | node c l k r => exact ⟨by simp, h.2.1, h.2.2⟩

theorem blackHeight_setBlack_of_red {t : RB_Node α} (h : t.color = RED) :
    blackHeight t.setBlack = blackHeight t + 1 := by
  cases t with
  | NIL => simp [RB_Node.color] at h
  | node c l k r => simp only [RB_Node.color] at h; subst h; simp [RB_Node.setBlack, blackHeight]

theorem countRed_setBlack_of_red {t : RB_Node α} (h : t.color = RED) :
    countRed t.setBlack + 1 = countRed t := by
  cases t with
  | NIL => simp [RB_Node.color] at h
  | node c l k r => simp only [RB_Node.color] at h; subst h; simp [RB_Node.setBlack, countRed]

theorem countBlack_setBlack_of_red {t : RB_Node α} (h : t.color = RED) :
    countBlack t.setBlack = countBlack t + 1 := by
  cases t with
  | NIL => simp [RB_Node.color] at h
  | node c l k r => simp only [RB_Node.color] at h; subst h; simp [RB_Node.setBlack, countBlack]

theorem ascending_zip (t : RB_Node α) (path : List (Frame α)) :
    ascending (zip t path) = pathLeft path ++ ascending t ++ pathRight path := by
  induction path generalizing t with
  | nil => simp [zip, pathLeft, pathRight]
  | cons f rest ih =>
    cases f <;> simp [zip, ih, Frame.plug, ascending, pathLeft, pathRight, List.append_assoc]

theorem countRed_zip (t : RB_Node α) (path : List (Frame α)) :
    countRed (zip t path) = countRed t + pathRed path := by
  induction path generalizing t with
  | nil => simp [zip, pathRed]
  | cons f rest ih =>
    cases f <;> simp [zip, ih, Frame.plug, countRed, pathRed, Frame.other, Frame.color] <;> omega

theorem countBlack_zip (t : RB_Node α) (path : List (Frame α)) :
    countBlack (zip t path) = countBlack t + pathBlack path := by
  induction path generalizing t with
  | nil => simp [zip, pathBlack]
  | cons f rest ih =>
    cases f <;> simp [zip, ih, Frame.plug, countBlack, pathBlack, Frame.other, Frame.color] <;>
      omega

theorem color_zip (t : RB_Node α) (path : List (Frame α)) :
    (zip t path).color = topColor path t.color := by
  induction path generalizing t with
  | nil => rfl
  | cons f rest ih => cases f <;> (simp only [zip, Frame.plug, topColor, Frame.color]; rw [ih]; rfl)

theorem topColor_cons (f : Frame α) (rest : List (Frame α)) (c d : Color) :
    topColor (f :: rest) c = topColor (f :: rest) d := rfl

theorem topColor_of_ne_nil {path : List (Frame α)} (h : path ≠ []) (c d : Color) :
    topColor path c = topColor path d := by
  cases path with
  | nil => exact absurd rfl h
  | cons f rest => rfl

theorem balanced_zip {t : RB_Node α} {path : List (Frame α)} (ht : balanced t)
    (hp : pathBal path (blackHeight t)) : balanced (zip t path) := by
  induction path generalizing t with
  | nil => exact ht
  | cons f rest ih =>
    obtain ⟨h1, h2, h3⟩ := hp
    cases f with
    | inLeft c k r =>
      apply ih
      · exact ⟨h1.symm, ht, h2⟩
      · simpa [Frame.plug, blackHeight, Frame.blackUnit, Frame.color] using h3
    | inRight c l k =>
      apply ih
      · exact ⟨h1, h2, ht⟩
      · simp only [Frame.other] at h1
        simpa [Frame.plug, blackHeight, Frame.blackUnit, Frame.color, h1] using h3

theorem noRedRed_zip {t : RB_Node α} {path : List (Frame α)} (ht : noRedRed t)
    (he : parentColor path = RED → t.color = BLACK) (hp : pathRR path) :
    noRedRed (zip t path) := by
  induction path generalizing t with
  | nil => exact ht
  | cons f rest ih =>
    obtain ⟨h1, h2, h3⟩ := hp
    cases f with
    | inLeft c k r =>
      apply ih _ _ h3
      · exact ⟨fun hc => ⟨he hc, (h2 hc).1⟩, ht, h1⟩
      · intro hr
        by_contra hne
        have hc : c = RED := Color.eq_red_of_ne_black hne
        have := (h2 hc).2
        simp [hr] at this
    | inRight c l k =>
      apply ih _ _ h3
      · exact ⟨fun hc => ⟨(h2 hc).1, he hc⟩, h1, ht⟩
      · intro hr
        by_contra hne
        have hc : c = RED := Color.eq_red_of_ne_black hne
        have := (h2 hc).2
        simp [hr] at this

@[simp] theorem color_NIL : (NIL : RB_Node α).color = BLACK := rfl

@[simp] theorem color_node (c : Color) (l : RB_Node α) (k : α) (r : RB_Node α) :
    (node c l k r).color = c := rfl

theorem color_red_iff {t : RB_Node α} :
    t.color = RED ↔ ∃ l k r, t = node RED l k r := by
  cases t with
  | NIL => simp
  | node c l k r => simp

theorem insertFixupStep_spec [LinearOrder α] {x : RB_Node α} {path : List (Frame α)} (nr nb : Nat)
    (h : InsertInv x path) (hp : parentColor path = RED) :
    ∃ x2 path2 nr2 nb2, insertFixupStep x path nr nb = some (x2, path2, nr2, nb2) ∧
      InsertInv x2 path2 ∧
      (parentColor path2 = RED → path2.length < path.length) ∧
      ascending (zip x2 path2) = ascending (zip x path) ∧
      (nr = countRed (zip x path) ∧ nb = countBlack (zip x path) →
        nr2 = countRed (zip x2 path2) ∧ nb2 = countBlack (zip x2 path2)) := by
  obtain ⟨hred, hbal, hrr, hpbal, hprr, htop⟩ := h
  obtain ⟨xl, xk, xr, rfl⟩ := color_red_iff.1 hred
  rcases path with _ | ⟨f1, _ | ⟨f2, rest⟩⟩
  · simp [parentColor] at hp
  · simp [parentColor] at hp
    simp [topColor, hp] at htop
  · rcases f1 with ⟨pc, pk, pr⟩ | ⟨pc, pl, pk⟩ <;> rcases f2 with ⟨gc, gk, u⟩ | ⟨gc, u, gk⟩
    all_goals
      simp only [parentColor, Frame.color] at hp
      subst hp
      simp only [pathBal, pathRR, Frame.other, Frame.color, Frame.blackUnit, parentColor, topColor,
        true_implies, balanced, noRedRed, blackHeight, color_node, color_NIL] at hpbal hprr htop hbal hrr
      obtain ⟨hb1, hb2, hb3, hb4, hb5⟩ := hpbal
      obtain ⟨hr1, ⟨hr2, hr3⟩, hr4, hr5, hr6⟩ := hprr
      subst hr3
      by_cases hu : u.color = RED
      · obtain ⟨ul, uk, ur, rfl⟩ := color_red_iff.1 hu
        simp only [insertFixupStep, color_node, RB_Node.setBlack, if_true]
        refine ⟨_, _, _, _, rfl, ?_, ?_, ?_, ?_⟩
        · constructor <;>
            simp_all [balanced, noRedRed, blackHeight, pathBal, pathRR]
        · intro _; simp only [List.length_cons]; omega
        · simp [ascending_zip, pathLeft, pathRight, ascending]
        · simp only [countRed_zip, countBlack_zip, countRed, countBlack, pathRed, pathBlack,
            Frame.other, Frame.color]
          simp
          omega
      · have hub : u.color = BLACK := Color.eq_black_of_ne_red hu
        simp only [insertFixupStep, leftRotate, rightRotate, hu, if_false]
        refine ⟨_, _, _, _, rfl, ?_, ?_, ?_, ?_⟩
        · constructor <;>
            simp_all [balanced, noRedRed, blackHeight, pathBal, pathRR,
              Frame.other, Frame.color, Frame.blackUnit, parentColor, topColor]
        · intro h; simp [parentColor, Frame.color] at h
        · simp [ascending_zip, pathLeft, pathRight, ascending]
        · simp only [countRed_zip, countBlack_zip, countRed, countBlack, pathRed, pathBlack,
            Frame.other, Frame.color]
          simp
          omega

theorem insertFixupLoop_spec [LinearOrder α] (fuel : Nat) :
    ∀ (x : RB_Node α) (path : List (Frame α)) (nr nb : Nat), InsertInv x path →
      0 < fuel → (parentColor path = RED → path.length < fuel) →
      ∃ x2 path2 nr2 nb2, insertFixupLoop fuel x path nr nb = some (zip x2 path2, nr2, nb2) ∧
        InsertInv x2 path2 ∧ parentColor path2 ≠ RED ∧
        ascending (zip x2 path2) = ascending (zip x path) ∧
        (nr = countRed (zip x path) ∧ nb = countBlack (zip x path) →
          nr2 = countRed (zip x2 path2) ∧ nb2 = countBlack (zip x2 path2)) := by
  induction fuel with
  | zero => intro x path nr nb _ h0; omega
  | succ fuel ih =>
    intro x path nr nb hinv _ hfuel
    by_cases hp : parentColor path = RED
    · obtain ⟨x1, path1, nr1, nb1, hstep, hinv1, hlen1, hasc1, hcnt1⟩ :=
        insertFixupStep_spec nr nb hinv hp
      have hfuel0 : 0 < fuel := by
        have := hfuel hp
        cases path with
        | nil => simp [parentColor] at hp
        | cons f rest => simp only [List.length_cons] at this; omega
      obtain ⟨x2, path2, nr2, nb2, hloop, hinv2, hp2, hasc2, hcnt2⟩ :=
        ih x1 path1 nr1 nb1 hinv1 hfuel0 (fun h => by have := hlen1 h; have := hfuel hp; omega)
      refine ⟨x2, path2, nr2, nb2, ?_, hinv2, hp2, hasc2.trans hasc1, fun h => hcnt2 (hcnt1 h)⟩
      simp only [insertFixupLoop, hp, if_true, hstep, hloop]
    · exact ⟨x, path, nr, nb, by simp only [insertFixupLoop, hp, if_false], hinv, hp, rfl,
        fun h => h⟩

theorem RBInvariants_of_insertInv {x : RB_Node α} {path : List (Frame α)}
    (h : InsertInv x path) (hp : parentColor path ≠ RED) :
    RBInvariants (zip x path).setBlack := by
  refine ⟨color_setBlack _, rfl, noRedRed_setBlack ?_, (balanced_setBlack _).2 ?_⟩
  · exact noRedRed_zip h.rr (fun hr => absurd hr hp) h.prr
  · exact balanced_zip h.bal h.pbal

theorem insertFixup_spec [LinearOrder α] {x : RB_Node α} {path : List (Frame α)} (nr nb : Nat)
    (h : InsertInv x path) :
    ∃ t : RB_Tree α, insertFixup x path nr nb = some t ∧ RBInvariants t.root ∧
      ascending t.root = ascending (zip x path) ∧
      (nr + 1 = countRed (zip x path) ∧ nb = countBlack (zip x path) → countersExact t) := by
  obtain ⟨x2, path2, nr2, nb2, hloop, hinv2, hp2, hasc2, hcnt2⟩ :=
    insertFixupLoop_spec (path.length + 1) x path (nr + 1) nb h (Nat.succ_pos _)
      (fun _ => Nat.lt_succ_self _)
  have hrb := RBInvariants_of_insertInv hinv2 hp2
  by_cases hroot : (zip x2 path2).color = RED
  · refine ⟨⟨(zip x2 path2).setBlack, nr2 - 1, nb2 + 1⟩, ?_, hrb, ?_, ?_⟩
    · simp only [insertFixup, hloop, hroot, if_true]
    · simpa using hasc2
    · intro hc
      obtain ⟨h1, h2⟩ := hcnt2 hc
      have e1 := countRed_setBlack_of_red hroot
      have e2 := countBlack_setBlack_of_red hroot
      constructor
      · show nr2 - 1 = countRed (zip x2 path2).setBlack
        omega
      · show nb2 + 1 = countBlack (zip x2 path2).setBlack
        omega
  · refine ⟨⟨(zip x2 path2).setBlack, nr2, nb2⟩, ?_, hrb, ?_, ?_⟩
    · simp only [insertFixup, hloop, hroot, if_false]
    · simpa using hasc2
    · intro hc
      obtain ⟨h1, h2⟩ := hcnt2 hc
      rw [setBlack_of_black (Color.eq_black_of_ne_red hroot)]
      exact ⟨h1, h2⟩

theorem CursorInv.root {t : RB_Node α} (h : RBInvariants t) : CursorInv t [] :=
  ⟨h.blackRule, h.redRule, trivial, trivial, fun hp => by simp [parentColor] at hp, h.rootBlack⟩

theorem CursorInv.toRB {x : RB_Node α} {path : List (Frame α)} (h : CursorInv x path) :
    RBInvariants (zip x path) :=
  ⟨(color_zip x path).trans h.top, rfl, noRedRed_zip h.rr h.edge h.prr, balanced_zip h.bal h.pbal⟩

theorem CursorInv.left {c : Color} {l r : RB_Node α} {k : α} {path : List (Frame α)}
    (h : CursorInv (node c l k r) path) : CursorInv l (Frame.inLeft c k r :: path) := by
  obtain ⟨hbal, hrr, hpbal, hprr, hedge, htop⟩ := h
  refine ⟨hbal.2.1, hrr.2.1, ⟨hbal.1.symm, hbal.2.2, hpbal⟩, ⟨hrr.2.2, ?_, hprr⟩, ?_, htop⟩
  · intro hc
    refine ⟨(hrr.1 hc).2, ?_⟩
    by_contra hne
    have hb := hedge (Color.eq_red_of_ne_black hne)
    have hc2 : c = RED := hc
    simp [hc2] at hb
  · intro hc
    exact (hrr.1 hc).1

theorem CursorInv.right {c : Color} {l r : RB_Node α} {k : α} {path : List (Frame α)}
    (h : CursorInv (node c l k r) path) : CursorInv r (Frame.inRight c l k :: path) := by
  obtain ⟨hbal, hrr, hpbal, hprr, hedge, htop⟩ := h
  refine ⟨hbal.2.2, hrr.2.2, ⟨hbal.1, hbal.2.1, ?_⟩, ⟨hrr.2.1, ?_, hprr⟩, ?_, htop⟩
  · have : blackHeight r + Frame.blackUnit (Frame.inRight c l k) =
        blackHeight (node c l k r) := by
      simp [blackHeight, Frame.blackUnit, Frame.color, hbal.1]
    rw [this]; exact hpbal
  · intro hc
    refine ⟨(hrr.1 hc).1, ?_⟩
    by_contra hne
    have hb := hedge (Color.eq_red_of_ne_black hne)
    have hc2 : c = RED := hc
    simp [hc2] at hb
  · intro hc
    exact (hrr.1 hc).2

section Descend

variable [LinearOrder α]

theorem RB_insert_descend_cursor (key : α) :
    ∀ (t : RB_Node α) (path : List (Frame α)), CursorInv t path →
      CursorInv NIL (RB_insert_descend key t path) := by
  intro t
  induction t with
  | NIL => intro path h; exact h
  | node c l k r ihl ihr =>
    intro path h
    simp only [RB_insert_descend]
    split
    · exact ihl _ h.left
    · exact ihr _ h.right

theorem RB_insert_descend_zip (key : α) :
    ∀ (t : RB_Node α) (path : List (Frame α)),
      zip NIL (RB_insert_descend key t path) = zip t path := by
  intro t
  induction t with
  | NIL => intro path; rfl
  | node c l k r ihl ihr =>
    intro path
    simp only [RB_insert_descend]
    split
    · rw [ihl]; rfl
    · rw [ihr]; rfl

theorem RB_insert_descend_bounds (key : α) :
    ∀ (t : RB_Node α) (path : List (Frame α)), ordered t →
      (∀ a ∈ pathLeft path, a ≤ key) → (∀ b ∈ pathRight path, key ≤ b) →
      (∀ a ∈ pathLeft (RB_insert_descend key t path), a ≤ key) ∧
        (∀ b ∈ pathRight (RB_insert_descend key t path), key ≤ b) := by
  intro t
  induction t with
  | NIL => intro path _ h1 h2; exact ⟨h1, h2⟩
  | node c l k r ihl ihr =>
    intro path ho h1 h2
    obtain ⟨hl, hr, hol, hor⟩ := ho
    simp only [RB_insert_descend]
    split
    · next hlt =>
      apply ihl _ hol
      · simpa [pathLeft] using h1
      · intro b hb
        simp only [pathRight, List.mem_append, List.mem_cons] at hb
        rcases hb with (rfl | hb) | hb
        · exact le_of_lt hlt
        · exact le_trans (le_of_lt hlt) (hr b hb)
        · exact h2 b hb
    · next hlt =>
      apply ihr _ hor
      · intro a ha
        simp only [pathLeft, List.mem_append, List.mem_cons, List.mem_singleton,
          List.not_mem_nil, or_false] at ha
        rcases ha with ha | ha | rfl
        · exact h1 a ha
        · exact le_trans (hl a ha) (not_lt.1 hlt)
        · exact not_lt.1 hlt
      · simpa [pathRight] using h2

theorem RB_insert_link_descend (key : α) :
    ∀ (t : RB_Node α) (path : List (Frame α)), RB_insert_link key path = path →
      RB_insert_link key (RB_insert_descend key t path) = RB_insert_descend key t path := by
  intro t
  induction t with
  | NIL => intro path h; exact h
  | node c l k r ihl ihr =>
    intro path _
    simp only [RB_insert_descend]
    split
    · next hlt => exact ihl _ (by simp [RB_insert_link, hlt])
    · next hlt => exact ihr _ (by simp [RB_insert_link, hlt])

end Descend

theorem ordered_iff_sorted [LinearOrder α] (t : RB_Node α) :
    ordered t ↔ (ascending t).Pairwise (· ≤ ·) := by
  induction t with
  | NIL => simp [ordered, ascending]
  | node c l k r ihl ihr =>
    simp only [ordered, ascending, List.pairwise_append, List.pairwise_cons, List.mem_cons,
      ihl, ihr]
    constructor
    · rintro ⟨h1, h2, h3, h4⟩
      refine ⟨h3, ⟨h2, h4⟩, ?_⟩
      rintro a ha b (rfl | hb)
      · exact h1 a ha
      · exact le_trans (h1 a ha) (h2 b hb)
    · rintro ⟨h1, ⟨h2, h3⟩, h4⟩
      exact ⟨fun a ha => h4 a ha k (Or.inl rfl), h2, h1, h3⟩

theorem size_eq_length (t : RB_Node α) : size t = (ascending t).length := by
  induction t with
  | NIL => rfl
  | node c l k r ihl ihr => simp [size, ascending, ihl, ihr]; omega

theorem size_eq_counts (t : RB_Node α) : size t = countRed t + countBlack t := by
  induction t with
  | NIL => rfl
  | node c l k r ihl ihr => cases c <;> simp [size, countRed, countBlack, ihl, ihr] <;> omega

/-- Everything `insert` guarantees on a tree satisfying the red-black invariants. -/
theorem insert_core [LinearOrder α] (k : α) (t : RB_Tree α) (h : RBInvariants t.root) :
    ∃ t2 : RB_Tree α, insert k t = some t2 ∧ RBInvariants t2.root ∧
      (countersExact t → countersExact t2) ∧
      ∃ A B, ascending t.root = A ++ B ∧ ascending t2.root = A ++ k :: B ∧
        (ordered t.root → (∀ a ∈ A, a ≤ k) ∧ (∀ b ∈ B, k ≤ b)) := by
  have hcur := RB_insert_descend_cursor k t.root [] (CursorInv.root h)
  have hzip := RB_insert_descend_zip k t.root []
  have hlink := RB_insert_link_descend k t.root [] rfl
  have hbounds : ordered t.root →
      (∀ a ∈ pathLeft (RB_insert_descend k t.root []), a ≤ k) ∧
        (∀ b ∈ pathRight (RB_insert_descend k t.root []), k ≤ b) := fun ho =>
    RB_insert_descend_bounds k t.root [] ho (by simp [pathLeft]) (by simp [pathRight])
  generalize hpe : RB_insert_descend k t.root [] = path at hcur hzip hlink hbounds
  have hinv : InsertInv (node RED NIL k NIL) path :=
    ⟨rfl, ⟨rfl, trivial, trivial⟩, ⟨fun _ => ⟨rfl, rfl⟩, trivial, trivial⟩, hcur.pbal, hcur.prr,
      hcur.top⟩
  obtain ⟨t2, hfix, hrb, hasc, hcnt⟩ := insertFixup_spec t.numRedNodes t.numBlackNodes hinv
  have hold : ascending t.root = pathLeft path ++ pathRight path := by
    rw [show t.root = zip t.root [] from rfl, ← hzip, ascending_zip]
    simp [ascending]
  refine ⟨t2, ?_, hrb, ?_, pathLeft path, pathRight path, hold, ?_, ?_⟩
  · simp only [insert, RB_insert, hpe, hlink, hfix]
  · intro hc
    apply hcnt
    have e1 : countRed t.root = pathRed path := by
      rw [show t.root = zip t.root [] from rfl, ← hzip, countRed_zip]; simp [countRed]
    have e2 : countBlack t.root = pathBlack path := by
      rw [show t.root = zip t.root [] from rfl, ← hzip, countBlack_zip]; simp [countBlack]
    rw [countRed_zip, countBlack_zip, hc.1, hc.2, e1, e2]
    simp [countRed, countBlack]
    omega
  · rw [hasc, ascending_zip]; simp [ascending]
  · intro ho
    exact hbounds ho

theorem DeleteInv.ofRoot {t : RB_Node α} {rest : List (Frame α)} (hb : balanced t)
    (hr : noRedRed t) (hpb : pathBal rest (blackHeight t)) (hpr : pathRR rest)
    (he : parentColor rest = RED → t.color = BLACK) : DeleteInv (zip t rest) [] :=
  ⟨balanced_zip hb hpb, noRedRed_setBlack (noRedRed_zip hr he hpr), trivial, trivial, rfl⟩

theorem pathBal_congr {path : List (Frame α)} {h1 h2 : Nat} (h : pathBal path h1)
    (e : h1 = h2) : pathBal path h2 := e ▸ h

@[simp] theorem parentColor_nil : parentColor ([] : List (Frame α)) = BLACK := rfl

@[simp] theorem parentColor_cons (f : Frame α) (rest : List (Frame α)) :
    parentColor (f :: rest) = f.color := rfl

theorem topColor_black_of {path : List (Frame α)} {c : Color} (h : topColor path c = BLACK) :
    topColor path BLACK = BLACK := by
  cases path with
  | nil => rfl
  | cons f rest => exact h

set_option maxHeartbeats 4000000 in
theorem deleteFixupStep_spec [LinearOrder α] {x : RB_Node α} {path : List (Frame α)} (nr nb : Nat)
    (h : DeleteInv x path) (hne : path ≠ []) (hxb : x.color = BLACK) :
    ∃ x2 path2 nr2 nb2, deleteFixupStep x path nr nb = some (x2, path2, nr2, nb2) ∧
      DeleteInv x2 path2 ∧
      (path2 ≠ [] ∧ x2.color = BLACK → path2.length < path.length) ∧
      ascending (zip x2 path2) = ascending (zip x path) ∧
      (nr = countRed (zip x path) ∧ nb = countBlack (zip x path) →
        nr2 = countRed (zip x2 path2) ∧ nb2 = countBlack (zip x2 path2)) := by
  obtain ⟨hbal, hrr, hpbal, hprr, htop⟩ := h
  rw [setBlack_of_black hxb] at hrr
  rcases path with _ | ⟨f, rest⟩
  · exact absurd rfl hne
  rcases f with ⟨pc, pk, w⟩ | ⟨pc, w, pk⟩
  · clear hne
    simp only [pathBal, pathRR, Frame.other, Frame.color, Frame.blackUnit, topColor] at hpbal hprr htop
    obtain ⟨hb1, hb2, hb3⟩ := hpbal
    obtain ⟨hr1, hr2, hr3⟩ := hprr
    rcases w with _ | ⟨wc, wl, wk, wr⟩
    · simp [blackHeight] at hb1
    cases wc
    · -- the sibling is RED: Case 1, then the left child of the sibling is the new sibling
      cases pc
      · simp at hr2
      rcases wl with _ | ⟨wlc, a, k, b⟩
      · simp [blackHeight] at hb1
      cases wlc
      · simp [noRedRed] at hr1
      rcases a with _ | ⟨ac, al, ak, ar⟩ <;> rcases b with _ | ⟨bc, bl, bk, br⟩
      all_goals first | cases ac | skip
      all_goals first | cases bc | skip
      all_goals
        simp only [balanced, noRedRed, blackHeight, color_node, color_NIL, reduceCtorEq, if_true,
          if_false, true_implies, false_implies, and_true, true_and, Nat.add_zero, Nat.zero_add]
          at hb1 hb2 hb3 hr1
        simp only [deleteFixupStep, leftRotate, rightRotate, color_node, color_NIL,
          RB_Node.setBlack, if_true, if_false, and_self, and_true, and_false, true_and, false_and,
          reduceCtorEq]
        refine ⟨_, _, _, _, rfl, ?_, ?_, ?_, ?_⟩
        · first
            | apply DeleteInv.ofRoot
            | constructor
          all_goals
            try simp only [balanced, noRedRed, blackHeight, color_node, color_NIL, reduceCtorEq,
              if_true, if_false, true_implies, false_implies, and_true, true_and, Nat.add_zero,
              Nat.zero_add, pathBal, pathRR, RB_Node.setBlack, Frame.other, Frame.color,
              Frame.blackUnit, parentColor_cons, parentColor_nil, topColor, implies_true]
          all_goals repeat' apply And.intro
          all_goals first
            | assumption
            | omega
            | exact pathBal_congr hb3 (by omega)
            | exact topColor_black_of htop
            | (simp only [hb2, hr1, hbal, hrr, hr3, htop, hxb, and_self]; done)
            | tauto
            | (intro hpr; simp [hr2.2] at hpr)
        · simp [zip]
        · simp [ascending_zip, pathLeft, pathRight, ascending]
        · simp only [countRed_zip, countBlack_zip, countRed, countBlack, pathRed, pathBlack,
            Frame.other, Frame.color]
          simp
          omega
    · -- the sibling is BLACK
      rcases wl with _ | ⟨ac, al, ak, ar⟩ <;> rcases wr with _ | ⟨bc, bl, bk, br⟩
      all_goals first | cases ac | skip
      all_goals first | cases bc | skip
      all_goals cases pc
      all_goals
        try simp only [reduceCtorEq, true_implies, false_implies] at hr2
        simp only [balanced, noRedRed, blackHeight, color_node, color_NIL, reduceCtorEq, if_true,
          if_false, true_implies, false_implies, and_true, true_and, Nat.add_zero, Nat.zero_add]
          at hb1 hb2 hb3 hr1
        simp only [deleteFixupStep, leftRotate, rightRotate, color_node, color_NIL,
          RB_Node.setBlack, if_true, if_false, and_self, and_true, and_false, true_and, false_and,
          reduceCtorEq]
        refine ⟨_, _, _, _, rfl, ?_, ?_, ?_, ?_⟩
        · first
            | apply DeleteInv.ofRoot
            | constructor
          all_goals
            try simp only [balanced, noRedRed, blackHeight, color_node, color_NIL, reduceCtorEq,
              if_true, if_false, true_implies, false_implies, and_true, true_and, Nat.add_zero,
              Nat.zero_add, pathBal, pathRR, RB_Node.setBlack, Frame.other, Frame.color,
              Frame.blackUnit, parentColor_cons, parentColor_nil, topColor, implies_true]
          all_goals repeat' apply And.intro
          all_goals first
            | assumption
            | omega
            | exact pathBal_congr hb3 (by omega)
            | exact topColor_black_of htop
            | (simp only [hb2, hr1, hbal, hrr, hr3, htop, hxb, and_self]; done)
            | tauto
            | (intro hpr; simp [hr2.2] at hpr)
        · simp [zip]
        · simp [ascending_zip, pathLeft, pathRight, ascending]
        · simp only [countRed_zip, countBlack_zip, countRed, countBlack, pathRed, pathBlack,
            Frame.other, Frame.color]
          simp
          omega
  · clear hne
    simp only [pathBal, pathRR, Frame.other, Frame.color, Frame.blackUnit, topColor] at hpbal hprr htop
    obtain ⟨hb1, hb2, hb3⟩ := hpbal
    obtain ⟨hr1, hr2, hr3⟩ := hprr
    rcases w with _ | ⟨wc, wl, wk, wr⟩
    · simp [blackHeight] at hb1
    cases wc
    · -- the sibling is RED: Case 1, then the right child of the sibling is the new sibling
      cases pc
      · simp at hr2
      rcases wr with _ | ⟨wlc, a, k, b⟩
      · simp [blackHeight, balanced] at hb1 hb2
        omega
      cases wlc
      · simp [noRedRed] at hr1
      rcases a with _ | ⟨ac, al, ak, ar⟩ <;> rcases b with _ | ⟨bc, bl, bk, br⟩
      all_goals first | cases ac | skip
      all_goals first | cases bc | skip
      all_goals
        simp only [balanced, noRedRed, blackHeight, color_node, color_NIL, reduceCtorEq, if_true,
          if_false, true_implies, false_implies, and_true, true_and, Nat.add_zero, Nat.zero_add]
          at hb1 hb2 hb3 hr1
        simp only [deleteFixupStep, leftRotate, rightRotate, color_node, color_NIL,
          RB_Node.setBlack, if_true, if_false, and_self, and_true, and_false, true_and, false_and,
          reduceCtorEq]
        refine ⟨_, _, _, _, rfl, ?_, ?_, ?_, ?_⟩
        · first
            | apply DeleteInv.ofRoot
            | constructor
          all_goals
            try simp only [balanced, noRedRed, blackHeight, color_node, color_NIL, reduceCtorEq,
              if_true, if_false, true_implies, false_implies, and_true, true_and, Nat.add_zero,
              Nat.zero_add, pathBal, pathRR, RB_Node.setBlack, Frame.other, Frame.color,
              Frame.blackUnit, parentColor_cons, parentColor_nil, topColor, implies_true]
          all_goals repeat' apply And.intro
          all_goals first
            | assumption
            | omega
            | exact pathBal_congr hb3 (by omega)
            | exact topColor_black_of htop
            | (simp only [hb2, hr1, hbal, hrr, hr3, htop, hxb, and_self]; done)
            | tauto
            | (intro hpr; simp [hr2.2] at hpr)
        · simp [zip]
        · simp [ascending_zip, pathLeft, pathRight, ascending]
        · simp only [countRed_zip, countBlack_zip, countRed, countBlack, pathRed, pathBlack,
            Frame.other, Frame.color]
          simp
          omega
    · -- the sibling is BLACK
      rcases wl with _ | ⟨ac, al, ak, ar⟩ <;> rcases wr with _ | ⟨bc, bl, bk, br⟩
      all_goals first | cases ac | skip
      all_goals first | cases bc | skip
      all_goals cases pc
      all_goals
        try simp only [reduceCtorEq, true_implies, false_implies] at hr2
        simp only [balanced, noRedRed, blackHeight, color_node, color_NIL, reduceCtorEq, if_true,
          if_false, true_implies, false_implies, and_true, true_and, Nat.add_zero, Nat.zero_add]
          at hb1 hb2 hb3 hr1
        simp only [deleteFixupStep, leftRotate, rightRotate, color_node, color_NIL,
          RB_Node.setBlack, if_true, if_false, and_self, and_true, and_false, true_and, false_and,
          reduceCtorEq]
        refine ⟨_, _, _, _, rfl, ?_, ?_, ?_, ?_⟩
        · first
            | apply DeleteInv.ofRoot
            | constructor
          all_goals
            try simp only [balanced, noRedRed, blackHeight, color_node, color_NIL, reduceCtorEq,
              if_true, if_false, true_implies, false_implies, and_true, true_and, Nat.add_zero,
              Nat.zero_add, pathBal, pathRR, RB_Node.setBlack, Frame.other, Frame.color,
              Frame.blackUnit, parentColor_cons, parentColor_nil, topColor, implies_true]
          all_goals repeat' apply And.intro
          all_goals first
            | assumption
            | omega
            | exact pathBal_congr hb3 (by omega)
            | exact topColor_black_of htop
            | (simp only [hb2, hr1, hbal, hrr, hr3, htop, hxb, and_self]; done)
            | tauto
            | (intro hpr; simp [hr2.2] at hpr)
        · simp [zip]
        · simp [ascending_zip, pathLeft, pathRight, ascending]
        · simp only [countRed_zip, countBlack_zip, countRed, countBlack, pathRed, pathBlack,
            Frame.other, Frame.color]
          simp
          omega

theorem deleteFixupLoop_spec [LinearOrder α] (fuel : Nat) :
    ∀ (x : RB_Node α) (path : List (Frame α)) (nr nb : Nat), DeleteInv x path →
      0 < fuel → (path ≠ [] ∧ x.color = BLACK → path.length < fuel) →
      ∃ x2 path2 nr2 nb2, deleteFixupLoop fuel x path nr nb = some (x2, path2, nr2, nb2) ∧
        DeleteInv x2 path2 ∧ ¬ (path2 ≠ [] ∧ x2.color = BLACK) ∧
        ascending (zip x2 path2) = ascending (zip x path) ∧
        (nr = countRed (zip x path) ∧ nb = countBlack (zip x path) →
          nr2 = countRed (zip x2 path2) ∧ nb2 = countBlack (zip x2 path2)) := by
  induction fuel with
  | zero => intro x path nr nb _ h0; omega
  | succ fuel ih =>
    intro x path nr nb hinv _ hfuel
    by_cases hp : path ≠ [] ∧ x.color = BLACK
    · obtain ⟨x1, path1, nr1, nb1, hstep, hinv1, hlen1, hasc1, hcnt1⟩ :=
        deleteFixupStep_spec nr nb hinv hp.1 hp.2
      have hfuel0 : 0 < fuel := by
        have := hfuel hp
        cases path with
        | nil => exact absurd rfl hp.1
        | cons f rest => simp only [List.length_cons] at this; omega
      obtain ⟨x2, path2, nr2, nb2, hloop, hinv2, hp2, hasc2, hcnt2⟩ :=
        ih x1 path1 nr1 nb1 hinv1 hfuel0 (fun h => by have := hlen1 h; have := hfuel hp; omega)
      refine ⟨x2, path2, nr2, nb2, ?_, hinv2, hp2, hasc2.trans hasc1, fun h => hcnt2 (hcnt1 h)⟩
      rw [deleteFixupLoop, if_pos hp, hstep]
      exact hloop
    · refine ⟨x, path, nr, nb, ?_, hinv, hp, rfl, fun h => h⟩
      rw [deleteFixupLoop, if_neg hp]

theorem RBInvariants_of_deleteInv {x : RB_Node α} {path : List (Frame α)}
    (h : DeleteInv x path) (hp : ¬ (path ≠ [] ∧ x.color = BLACK)) :
    RBInvariants (zip x.setBlack path) := by
  refine ⟨?_, rfl, ?_, ?_⟩
  · rw [color_zip, color_setBlack]; exact h.top
  · exact noRedRed_zip h.rr (fun _ => color_setBlack x) h.prr
  · apply balanced_zip ((balanced_setBlack x).2 h.bal)
    cases path with
    | nil => trivial
    | cons f rest =>
      have hx : x.color = RED := by
        apply Color.eq_red_of_ne_black
        intro hb
        exact hp ⟨by simp, hb⟩
      rw [blackHeight_setBlack_of_red hx]
      exact h.pbal

theorem deleteFixup_spec [LinearOrder α] {x : RB_Node α} {path : List (Frame α)} (nr nb : Nat)
    (h : DeleteInv x path) :
    ∃ t : RB_Tree α, deleteFixup x path nr nb = some t ∧ RBInvariants t.root ∧
      ascending t.root = ascending (zip x path) ∧
      (nr = countRed (zip x path) ∧ nb = countBlack (zip x path) → countersExact t) := by
  obtain ⟨x2, path2, nr2, nb2, hloop, hinv2, hp2, hasc2, hcnt2⟩ :=
    deleteFixupLoop_spec (path.length + 1) x path nr nb h (Nat.succ_pos _)
      (fun _ => Nat.lt_succ_self _)
  have hrb := RBInvariants_of_deleteInv hinv2 hp2
  have hasc : ascending (zip x2.setBlack path2) = ascending (zip x path) := by
    rw [← hasc2, ascending_zip, ascending_zip, ascending_setBlack]
  by_cases hx : x2.color ≠ BLACK
  · refine ⟨⟨zip x2.setBlack path2, nr2 - 1, nb2 + 1⟩, ?_, hrb, hasc, ?_⟩
    · rw [deleteFixup, hloop]
      exact if_pos hx
    · intro hc
      obtain ⟨h1, h2⟩ := hcnt2 hc
      have hred := Color.eq_red_of_ne_black hx
      have e1 := countRed_setBlack_of_red hred
      have e2 := countBlack_setBlack_of_red hred
      rw [countRed_zip] at h1
      rw [countBlack_zip] at h2
      constructor
      · show nr2 - 1 = countRed (zip x2.setBlack path2)
        rw [countRed_zip]; omega
      · show nb2 + 1 = countBlack (zip x2.setBlack path2)
        rw [countBlack_zip]; omega
  · refine ⟨⟨zip x2.setBlack path2, nr2, nb2⟩, ?_, hrb, hasc, ?_⟩
    · rw [deleteFixup, hloop]
      exact if_neg hx
    · intro hc
      have hb : x2.color = BLACK := not_not.1 hx
      show nr2 = countRed (zip x2.setBlack path2) ∧ nb2 = countBlack (zip x2.setBlack path2)
      rw [setBlack_of_black hb]
      exact hcnt2 hc

/-- Splicing out a node of colour `c` whose place is taken by its only subtree `x`. -/
theorem splice_spec [LinearOrder α] (x : RB_Node α) (c : Color) (path : List (Frame α))
    (nr nb : Nat) (hbal : balanced x) (hrr : noRedRed x)
    (hpbal : pathBal path (blackHeight x + (if c = BLACK then 1 else 0))) (hprr : pathRR path)
    (hchild : c = RED → x.color = BLACK) (hedge : parentColor path = RED → c = BLACK)
    (htop : topColor path c = BLACK) :
    ∃ t : RB_Tree α,
      (if c = BLACK then deleteFixup x path nr nb else some ⟨zip x path, nr, nb⟩) = some t ∧
      RBInvariants t.root ∧ ascending t.root = ascending (zip x path) ∧
      (nr = countRed (zip x path) ∧ nb = countBlack (zip x path) → countersExact t) := by
  cases c with
  | BLACK =>
    simp only [if_true] at hpbal ⊢
    exact deleteFixup_spec nr nb ⟨hbal, noRedRed_setBlack hrr, hpbal, hprr, htop⟩
  | RED =>
    simp only [reduceCtorEq, if_false, Nat.add_zero] at hpbal ⊢
    have hne : path ≠ [] := by
      rintro rfl
      simp [topColor] at htop
    have hcur : CursorInv x path :=
      ⟨hbal, hrr, hpbal, hprr, fun _ => hchild rfl, (topColor_of_ne_nil hne _ _).trans htop⟩
    exact ⟨⟨zip x path, nr, nb⟩, rfl, hcur.toRB, rfl, fun h => h⟩

theorem zip_append (t : RB_Node α) (p q : List (Frame α)) :
    zip t (p ++ q) = zip (zip t p) q := by
  induction p generalizing t with
  | nil => rfl
  | cons f rest ih => exact ih _

theorem pathLeft_append (p q : List (Frame α)) :
    pathLeft (p ++ q) = pathLeft q ++ pathLeft p := by
  induction p with
  | nil => simp [pathLeft]
  | cons f rest ih => cases f <;> simp [pathLeft, ih, List.append_assoc]

theorem pathRight_append (p q : List (Frame α)) :
    pathRight (p ++ q) = pathRight p ++ pathRight q := by
  induction p with
  | nil => simp [pathRight]
  | cons f rest ih => cases f <;> simp [pathRight, ih, List.append_assoc]

theorem pathRed_append (p q : List (Frame α)) : pathRed (p ++ q) = pathRed p + pathRed q := by
  induction p with
  | nil => simp [pathRed]
  | cons f rest ih => simp [pathRed, ih]; omega

theorem pathBlack_append (p q : List (Frame α)) :
    pathBlack (p ++ q) = pathBlack p + pathBlack q := by
  induction p with
  | nil => simp [pathBlack]
  | cons f rest ih => simp [pathBlack, ih]; omega

theorem minimum_append :
    ∀ (t : RB_Node α) (q : List (Frame α)),
      minimum t q = ((minimum t []).1, (minimum t []).2 ++ q) := by
  intro t
  induction t with
  | NIL => intro q; rfl
  | node c l k r ihl _ =>
    intro q
    cases l with
    | NIL => rfl
    | node lc ll lk lr =>
      simp only [minimum]
      rw [ihl (Frame.inLeft c k r :: q), ihl [Frame.inLeft c k r]]
      simp

theorem minimum_zip :
    ∀ (t : RB_Node α) (q : List (Frame α)), zip (minimum t q).1 (minimum t q).2 = zip t q := by
  intro t
  induction t with
  | NIL => intro q; rfl
  | node c l k r ihl _ =>
    intro q
    cases l with
    | NIL => rfl
    | node lc ll lk lr =>
      simp only [minimum]
      rw [ihl]; rfl

theorem minimum_cursor :
    ∀ (t : RB_Node α) (q : List (Frame α)), CursorInv t q →
      CursorInv (minimum t q).1 (minimum t q).2 := by
  intro t
  induction t with
  | NIL => intro q h; exact h
  | node c l k r ihl _ =>
    intro q h
    cases l with
    | NIL => exact h
    | node lc ll lk lr =>
      simp only [minimum]
      exact ihl _ h.left

theorem minimum_shape :
    ∀ (t : RB_Node α) (q : List (Frame α)), t ≠ NIL →
      ∃ yc yk yr, (minimum t q).1 = node yc NIL yk yr := by
  intro t
  induction t with
  | NIL => intro q h; exact absurd rfl h
  | node c l k r ihl _ =>
    intro q _
    cases l with
    | NIL => exact ⟨c, k, r, rfl⟩
    | node lc ll lk lr =>
      simp only [minimum]
      exact ihl _ (by simp)

theorem minimum_pathLeft :
    ∀ (t : RB_Node α) (q : List (Frame α)), pathLeft (minimum t q).2 = pathLeft q := by
  intro t
  induction t with
  | NIL => intro q; rfl
  | node c l k r ihl _ =>
    intro q
    cases l with
    | NIL => rfl
    | node lc ll lk lr =>
      simp only [minimum]
      rw [ihl]; rfl

theorem RB_delete_spec [LinearOrder α] {zc : Color} {zl zr : RB_Node α} {zk : α}
    {path : List (Frame α)} (nr nb : Nat) (h : CursorInv (node zc zl zk zr) path) :
    ∃ t : RB_Tree α, RB_delete (node zc zl zk zr) path nr nb = some t ∧ RBInvariants t.root ∧
      ascending t.root = pathLeft path ++ (ascending zl ++ ascending zr) ++ pathRight path ∧
      (nr = countRed (zip (node zc zl zk zr) path) ∧
        nb = countBlack (zip (node zc zl zk zr) path) → countersExact t) := by
  have hbal := h.bal
  have hrr := h.rr
  have hpbal := h.pbal
  simp only [balanced, noRedRed, blackHeight, color_node] at hbal hrr hpbal
  cases zl with
  | NIL =>
    simp only [blackHeight] at hbal hpbal
    obtain ⟨t, ht, hrb, hasc, hcnt⟩ :=
      splice_spec zr zc path
        (if zc = BLACK then nr else nr - 1) (if zc = BLACK then nb - 1 else nb)
        hbal.2.2 hrr.2.2 (by rw [← hbal.1]; exact hpbal) h.prr (fun hc => (hrr.1 hc).2)
        h.edge h.top
    refine ⟨t, ?_, hrb, ?_, ?_⟩
    · simp only [RB_delete]; exact ht
    · rw [hasc, ascending_zip]; simp [ascending]
    · intro hc
      apply hcnt
      rw [countRed_zip, countBlack_zip] at hc ⊢
      simp only [countRed, countBlack] at hc
      cases zc <;> simp at hc ⊢ <;> omega
  | node lc ll lk lr =>
    cases zr with
    | NIL =>
      simp only [blackHeight] at hbal hpbal
      obtain ⟨t, ht, hrb, hasc, hcnt⟩ :=
        splice_spec (node lc ll lk lr) zc path
          (if zc = BLACK then nr else nr - 1) (if zc = BLACK then nb - 1 else nb)
          hbal.2.1 hrr.2.1 hpbal h.prr (fun hc => (hrr.1 hc).1) h.edge h.top
      refine ⟨t, ?_, hrb, ?_, ?_⟩
      · simp only [RB_delete]; exact ht
      · rw [hasc, ascending_zip]; simp [ascending]
      · intro hc
        apply hcnt
        rw [countRed_zip, countBlack_zip] at hc ⊢
        simp only [countRed, countBlack] at hc ⊢
        cases zc <;> cases lc <;> simp at hc ⊢ <;> omega
    | node rc rl rk rr =>
      obtain ⟨yc, yk, yr, hy⟩ := minimum_shape (node rc rl rk rr) [] (by simp)
      have hz := minimum_zip (node rc rl rk rr) []
      have hpl := minimum_pathLeft (node rc rl rk rr) []
      have hcurR : CursorInv (node rc rl rk rr)
          (Frame.inRight zc (node lc ll lk lr) yk :: path) :=
        ⟨h.right.bal, h.right.rr, h.right.pbal, h.right.prr, h.right.edge, h.right.top⟩
      have hcy := minimum_cursor _ _ hcurR
      rw [minimum_append] at hcy
      generalize hmin : minimum (node rc rl rk rr) [] = m at hy hz hpl hcy
      obtain ⟨y, ypath⟩ := m
      simp only at hy hz hpl hcy
      subst hy
      simp only [zip, pathLeft] at hz hpl
      have hybal := hcy.bal
      have hyrr := hcy.rr
      have hypbal := hcy.pbal
      simp only [balanced, noRedRed, blackHeight, color_node] at hybal hyrr hypbal
      have hP : (if ypath = [] then Frame.inRight zc (node lc ll lk lr) yk :: path
          else ypath ++ Frame.inRight zc (node lc ll lk lr) yk :: path) =
          ypath ++ Frame.inRight zc (node lc ll lk lr) yk :: path := by
        split
        · next he => rw [he]; rfl
        · rfl
      obtain ⟨t, ht, hrb, hasc, hcnt⟩ :=
        splice_spec yr yc (ypath ++ Frame.inRight zc (node lc ll lk lr) yk :: path)
          (if zc = BLACK then
              (if yc ≠ zc then (if zc = BLACK then nr - 1 else nr + 1) else nr)
            else (if yc ≠ zc then (if zc = BLACK then nr - 1 else nr + 1) else nr) - 1)
          (if zc = BLACK then
              (if yc ≠ zc then (if zc = BLACK then nb + 1 else nb - 1) else nb) - 1
            else (if yc ≠ zc then (if zc = BLACK then nb + 1 else nb - 1) else nb))
          hybal.2.2 hyrr.2.2 (by rw [← hybal.1]; exact hypbal) hcy.prr
          (fun hc => (hyrr.1 hc).2) hcy.edge hcy.top
      have hascR : ascending (node rc rl rk rr) = yk :: ascending yr ++ pathRight ypath := by
        rw [← hz, ascending_zip, hpl]; simp [ascending]
      have hredR : countRed (node rc rl rk rr) =
          countRed yr + (if yc = RED then 1 else 0) + pathRed ypath := by
        rw [← hz, countRed_zip]; simp [countRed]
      have hblackR : countBlack (node rc rl rk rr) =
          countBlack yr + (if yc = BLACK then 1 else 0) + pathBlack ypath := by
        rw [← hz, countBlack_zip]; simp [countBlack]
      refine ⟨t, ?_, hrb, ?_, ?_⟩
      · simp only [RB_delete, hmin, hP]; exact ht
      · rw [hasc, ascending_zip, pathLeft_append, pathRight_append, hpl, hascR]
        simp [pathLeft, pathRight, ascending]
      · intro hc
        apply hcnt
        rw [countRed_zip, countBlack_zip] at hc ⊢
        rw [pathRed_append, pathBlack_append]
        simp only [countRed, countBlack, pathRed, pathBlack, Frame.other, Frame.color] at hc ⊢
        simp only [countRed, countBlack] at hredR hblackR
        cases zc <;> cases yc <;> cases lc <;> cases rc <;> simp at hc hredR hblackR ⊢ <;> omega

section Search

variable [LinearOrder α]

theorem search_cursor (key : α) :
    ∀ (t : RB_Node α) (path : List (Frame α)), CursorInv t path →
      CursorInv (search key t path).1 (search key t path).2 := by
  intro t
  induction t with
  | NIL => intro path h; exact h
  | node c l k r ihl ihr =>
    intro path h
    simp only [search]
    split
    · split
      · exact ihl _ h.left
      · exact ihr _ h.right
    · exact h

theorem search_zip (key : α) :
    ∀ (t : RB_Node α) (path : List (Frame α)),
      zip (search key t path).1 (search key t path).2 = zip t path := by
  intro t
  induction t with
  | NIL => intro path; rfl
  | node c l k r ihl ihr =>
    intro path
    simp only [search]
    split
    · split
      · rw [ihl]; rfl
      · rw [ihr]; rfl
    · rfl

theorem search_key (key : α) :
    ∀ (t : RB_Node α) (path : List (Frame α)) (c : Color) (l r : RB_Node α) (k : α),
      (search key t path).1 = node c l k r → k = key := by
  intro t
  induction t with
  | NIL => intro path c l r k h; simp [search] at h
  | node c0 l0 k0 r0 ihl ihr =>
    intro path c l r k h
    simp only [search] at h
    split at h
    · split at h
      · exact ihl _ _ _ _ _ h
      · exact ihr _ _ _ _ _ h
    · next heq =>
      simp only [node.injEq] at h
      rw [← h.2.2.1]
      exact (not_not.1 heq).symm

theorem search_absent (key : α) :
    ∀ (t : RB_Node α) (path : List (Frame α)), key ∉ ascending t →
      (search key t path).1 = NIL := by
  intro t
  induction t with
  | NIL => intro path _; rfl
  | node c l k r ihl ihr =>
    intro path h
    simp only [ascending, List.mem_append, List.mem_cons, not_or] at h
    simp only [search]
    rw [if_pos h.2.1]
    split
    · exact ihl _ h.1
    · exact ihr _ h.2.2

theorem search_present (key : α) :
    ∀ (t : RB_Node α) (path : List (Frame α)), ordered t → key ∈ ascending t →
      (search key t path).1 ≠ NIL := by
  intro t
  induction t with
  | NIL => intro path _ h; simp [ascending] at h
  | node c l k r ihl ihr =>
    intro path ho h
    obtain ⟨hl, hr, hol, hor⟩ := ho
    simp only [ascending, List.mem_append, List.mem_cons] at h
    simp only [search]
    split
    · next hne =>
      split
      · next hlt =>
        apply ihl _ hol
        rcases h with h | h | h
        · exact h
        · exact absurd h hne
        · exact absurd (hr key h) (not_le.2 hlt)
      · next hlt =>
        apply ihr _ hor
        rcases h with h | h | h
        · exact absurd (lt_of_le_of_ne (hl key h) hne) hlt
        · exact absurd h hne
        · exact h
    · simp

end Search

/-- What `remove` does on a tree satisfying the red-black invariants. -/
theorem remove_core [LinearOrder α] (k : α) (t : RB_Tree α) (h : RBInvariants t.root) :
    ∃ (b : Bool) (t2 : RB_Tree α), remove k t = some (b, t2) ∧ RBInvariants t2.root ∧
      (countersExact t → countersExact t2) ∧
      ((b = false ∧ t2 = t ∧ (search k t.root []).1 = NIL) ∨
        (b = true ∧ (search k t.root []).1 ≠ NIL ∧
          ∃ A B, ascending t.root = A ++ k :: B ∧ ascending t2.root = A ++ B)) := by
  have hcur := search_cursor k t.root [] (CursorInv.root h)
  have hzip := search_zip k t.root []
  have hkey := search_key k t.root []
  generalize hs : search k t.root [] = s at hcur hzip hkey
  obtain ⟨z, path⟩ := s
  simp only at hcur hzip hkey
  cases z with
  | NIL =>
    refine ⟨false, t, ?_, h, fun hc => hc, Or.inl ⟨rfl, rfl, rfl⟩⟩
    simp only [remove, hs]
  | node zc zl zk zr =>
    obtain rfl := hkey zc zl zr zk rfl
    obtain ⟨t2, ht2, hrb, hasc, hcnt⟩ := RB_delete_spec t.numRedNodes t.numBlackNodes hcur
    have hold : ascending t.root =
        (pathLeft path ++ ascending zl) ++ zk :: (ascending zr ++ pathRight path) := by
      rw [show t.root = zip t.root [] from rfl, ← hzip, ascending_zip]
      simp [ascending]
    refine ⟨true, t2, ?_, hrb, ?_, Or.inr ⟨rfl, by simp, _, _, hold, ?_⟩⟩
    · simp only [remove, hs, ht2]
    · intro hc
      apply hcnt
      rw [hzip]
      exact hc
    · rw [hasc]; simp

/-! ## Invariant 4: paths and black-heights -/

theorem blackHeight_mem_pathBlackCounts (t : RB_Node α) :
    blackHeight t ∈ pathBlackCounts t := by
  induction t with
  | NIL => simp [blackHeight, pathBlackCounts]
  | node c l k r ihl _ =>
    simp only [pathBlackCounts, blackHeight, List.mem_map, List.mem_append]
    exact ⟨blackHeight l, Or.inl ihl, rfl⟩

theorem pathBlackCounts_of_balanced {t : RB_Node α} (h : balanced t) :
    ∀ a ∈ pathBlackCounts t, a = blackHeight t := by
  induction t with
  | NIL => intro a ha; simpa [pathBlackCounts, blackHeight] using ha
  | node c l k r ihl ihr =>
    intro a ha
    obtain ⟨hlr, hl, hr⟩ := h
    simp only [pathBlackCounts, List.mem_map, List.mem_append] at ha
    obtain ⟨n, hn | hn, rfl⟩ := ha
    · rw [ihl hl n hn]; rfl
    · rw [ihr hr n hn, ← hlr]; rfl

theorem balanced_of_mem_subtrees {t : RB_Node α} (h : balanced t) :
    ∀ n ∈ subtrees t, balanced n := by
  induction t with
  | NIL => intro n hn; simp [subtrees] at hn
  | node c l k r ihl ihr =>
    intro n hn
    simp only [subtrees, List.mem_cons, List.mem_append] at hn
    rcases hn with rfl | hn | hn
    · exact h
    · exact ihl h.2.1 n hn
    · exact ihr h.2.2 n hn

theorem equalBlackPaths_iff_balanced (t : RB_Node α) : equalBlackPaths t ↔ balanced t := by
  constructor
  · intro h
    induction t with
    | NIL => trivial
    | node c l k r ihl ihr =>
      have hl : equalBlackPaths l := fun n hn =>
        h n (by simp only [subtrees, List.mem_cons, List.mem_append]; exact Or.inr (Or.inl hn))
      have hr : equalBlackPaths r := fun n hn =>
        h n (by simp only [subtrees, List.mem_cons, List.mem_append]; exact Or.inr (Or.inr hn))
      refine ⟨?_, ihl hl, ihr hr⟩
      have hself := h (node c l k r) (by simp [subtrees])
      have h1 : blackHeight l + (if c = BLACK then 1 else 0) ∈ pathBlackCounts (node c l k r) := by
        simp only [pathBlackCounts, List.mem_map, List.mem_append]
        exact ⟨_, Or.inl (blackHeight_mem_pathBlackCounts l), rfl⟩
      have h2 : blackHeight r + (if c = BLACK then 1 else 0) ∈ pathBlackCounts (node c l k r) := by
        simp only [pathBlackCounts, List.mem_map, List.mem_append]
        exact ⟨_, Or.inr (blackHeight_mem_pathBlackCounts r), rfl⟩
      have := hself _ h1 _ h2
      omega
  · intro h n hn a ha b hb
    have hbn := balanced_of_mem_subtrees h n hn
    rw [pathBlackCounts_of_balanced hbn a ha, pathBlackCounts_of_balanced hbn b hb]

theorem RBPathInvariants_iff (t : RB_Node α) : RBPathInvariants t ↔ RBInvariants t :=
  ⟨fun h => ⟨h.1, h.2, h.3, (equalBlackPaths_iff_balanced t).1 h.4⟩,
    fun h => ⟨h.1, h.2, h.3, (equalBlackPaths_iff_balanced t).2 h.4⟩⟩

/-! ## Height and size -/

theorem height_ge (t : RB_Node α) : -1 ≤ calculateSubtreeHeight t := by
  induction t with
  | NIL => simp [calculateSubtreeHeight]
  | node c l k r ihl ihr =>
    simp only [calculateSubtreeHeight, maximum]
    split <;> omega

theorem height_le_blackHeight {t : RB_Node α} (hb : balanced t) (hr : noRedRed t) :
    calculateSubtreeHeight t + 1 ≤
      2 * (blackHeight t : Int) + (if t.color = RED then 1 else 0) := by
  induction t with
  | NIL => simp [calculateSubtreeHeight, blackHeight]
  | node c l k r ihl ihr =>
    obtain ⟨hlr, hbl, hbr⟩ := hb
    obtain ⟨hc, hrl, hrr⟩ := hr
    have h1 := ihl hbl hrl
    have h2 := ihr hbr hrr
    have hlr2 : (blackHeight l : Int) = blackHeight r := by exact_mod_cast hlr
    cases c with
    | RED =>
      obtain ⟨hcl, hcr⟩ := hc rfl
      simp only [hcl, hcr, reduceCtorEq, if_false] at h1 h2
      simp only [calculateSubtreeHeight, maximum, blackHeight, color_node, if_true,
        reduceCtorEq, if_false]
      split <;> (push_cast; omega)
    | BLACK =>
      simp only [calculateSubtreeHeight, maximum, blackHeight, color_node, if_true,
        reduceCtorEq, if_false]
      split at h1 <;> split at h2 <;> split <;> (push_cast; omega)

theorem pow_blackHeight_le_size {t : RB_Node α} (hb : balanced t) :
    2 ^ blackHeight t ≤ size t + 1 := by
  induction t with
  | NIL => simp [blackHeight, size]
  | node c l k r ihl ihr =>
    obtain ⟨hlr, hbl, hbr⟩ := hb
    have h1 := ihl hbl
    have h2 := ihr hbr
    rw [hlr] at h1
    cases c with
    | RED =>
      simp only [blackHeight, size, reduceCtorEq, if_false, Nat.add_zero]
      rw [hlr]; omega
    | BLACK =>
      simp only [blackHeight, size, if_true]
      rw [hlr, pow_succ]; omega

theorem height_bound {t : RB_Node α} (h : RBInvariants t) :
    2 ^ (calculateSubtreeHeight t + 1).toNat ≤ (size t + 1) ^ 2 ∧
      calculateSubtreeHeight t + 1 ≤ 2 * (Nat.log 2 (size t + 1) : Int) := by
  have h1 := height_le_blackHeight h.blackRule h.redRule
  simp only [h.rootBlack, reduceCtorEq, if_false, add_zero] at h1
  have h2 := pow_blackHeight_le_size h.blackRule
  have h3 : (calculateSubtreeHeight t + 1).toNat ≤ 2 * blackHeight t := by omega
  constructor
  · calc 2 ^ (calculateSubtreeHeight t + 1).toNat
        ≤ 2 ^ (2 * blackHeight t) := Nat.pow_le_pow_right (by norm_num) h3
      _ = (2 ^ blackHeight t) ^ 2 := by rw [Nat.mul_comm, pow_mul]
      _ ≤ (size t + 1) ^ 2 := Nat.pow_le_pow_left h2 2
  · have h4 : blackHeight t ≤ Nat.log 2 (size t + 1) :=
      Nat.le_log_of_pow_le (by norm_num) h2
    omega

/-! ## Validity is preserved -/

theorem insert_valid [LinearOrder α] (k : α) (t : RB_Tree α) (h : Valid t) :
    ∃ t2 : RB_Tree α, insert k t = some t2 ∧ Valid t2 ∧
      ∃ A B, ascending t.root = A ++ B ∧ ascending t2.root = A ++ k :: B := by
  obtain ⟨t2, hins, hrb, hcnt, A, B, hA, hB, hbnd⟩ := insert_core k t h.rb
  refine ⟨t2, hins, ⟨hrb, ?_, hcnt h.counters⟩, A, B, hA, hB⟩
  obtain ⟨hle, hge⟩ := hbnd h.bst
  have hs := (ordered_iff_sorted t.root).1 h.bst
  rw [hA, List.pairwise_append] at hs
  rw [ordered_iff_sorted, hB, List.pairwise_append, List.pairwise_cons]
  refine ⟨hs.1, ⟨hge, hs.2.1⟩, ?_⟩
  intro a ha b hb
  rcases List.mem_cons.1 hb with rfl | hb
  · exact hle a ha
  · exact hs.2.2 a ha b hb

theorem remove_valid [LinearOrder α] (k : α) (t : RB_Tree α) (h : Valid t) :
    ∃ (b : Bool) (t2 : RB_Tree α), remove k t = some (b, t2) ∧ Valid t2 := by
  obtain ⟨b, t2, hrem, hrb, hcnt, hcase⟩ := remove_core k t h.rb
  refine ⟨b, t2, hrem, hrb, ?_, hcnt h.counters⟩
  rcases hcase with ⟨_, rfl, _⟩ | ⟨_, _, A, B, hA, hB⟩
  · exact h.bst
  · have hs := (ordered_iff_sorted t.root).1 h.bst
    rw [ordered_iff_sorted, hB]
    rw [hA] at hs
    exact hs.sublist (List.Sublist.append_left (List.sublist_cons_self k B) A)

theorem Valid.empty [LinearOrder α] : Valid (RB_Tree.empty : RB_Tree α) :=
  ⟨⟨rfl, rfl, trivial, trivial⟩, trivial, ⟨rfl, rfl⟩⟩

theorem runOps_valid [LinearOrder α] (ops : List (Op α)) :
    ∀ t : RB_Tree α, Valid t → ∃ t2, runOps ops t = some t2 ∧ Valid t2 := by
  induction ops with
  | nil => intro t h; exact ⟨t, rfl, h⟩
  | cons op rest ih =>
    intro t h
    cases op with
    | insert x =>
      obtain ⟨t1, h1, hv1, _⟩ := insert_valid x t h
      obtain ⟨t2, h2, hv2⟩ := ih t1 hv1
      exact ⟨t2, by simp only [runOps, applyOp, h1, h2], hv2⟩
    | remove x =>
      obtain ⟨b, t1, h1, hv1⟩ := remove_valid x t h
      obtain ⟨t2, h2, hv2⟩ := ih t1 hv1
      exact ⟨t2, by simp only [runOps, applyOp, h1, h2], hv2⟩

/-! ## The claims -/

/-- C1: for every tree that satisfies the red-black invariants (root BLACK, sentinel BLACK,
no RED node with a RED child, the same number of BLACK nodes on every path from a node down
to a sentinel) and every key `k`, the call `insert(k)` returns and the tree afterwards
satisfies all of these invariants again. -/
theorem insert_preserves_rb_invariants [LinearOrder α] (k : α) (t : RB_Tree α)
    (h : RBPathInvariants t.root) :
    ∃ t2 : RB_Tree α, insert k t = some t2 ∧ RBPathInvariants t2.root := by
  obtain ⟨t2, hins, hrb, _⟩ := insert_core k t ((RBPathInvariants_iff _).1 h)
  exact ⟨t2, hins, (RBPathInvariants_iff _).2 hrb⟩

/-- Instance of C1: inserting 4 under a RED parent with a RED uncle. -/
theorem insert_preserves_rb_invariants_witness :
    RBPathInvariants
        (⟨node BLACK (node RED NIL 1 NIL) 2 (node RED NIL 3 NIL), 2, 1⟩ : RB_Tree Nat).root ∧
      ∃ t2 : RB_Tree Nat,
        insert 4 ⟨node BLACK (node RED NIL 1 NIL) 2 (node RED NIL 3 NIL), 2, 1⟩ = some t2 ∧
          RBPathInvariants t2.root :=
  ⟨by decide, insert_preserves_rb_invariants 4 _ (by decide)⟩

/-- C2: for every tree that satisfies the red-black invariants (root BLACK, sentinel BLACK,
no RED node with a RED child, equal black-height on both sides of every node) and every key
`k` present in it, the call `remove(k)` returns and the tree afterwards satisfies all of
these invariants again; when the tree is BST-ordered the call does delete a node (it returns
true).  The statement covers the leaf, one-child and two-child cases of `RB_delete`. -/
theorem remove_preserves_rb_invariants [LinearOrder α] (k : α) (t : RB_Tree α)
    (h : RBInvariants t.root) (hk : k ∈ ascending t.root) :
    ∃ (b : Bool) (t2 : RB_Tree α), remove k t = some (b, t2) ∧ RBInvariants t2.root ∧
      (ordered t.root → b = true) := by
  obtain ⟨b, t2, hrem, hrb, _, hcase⟩ := remove_core k t h
  refine ⟨b, t2, hrem, hrb, fun ho => ?_⟩
  rcases hcase with ⟨_, _, hnil⟩ | ⟨hb, _⟩
  · exact absurd hnil (search_present k t.root [] ho hk)
  · exact hb

/-- Instance of C2: removing the root 10 of a seven-node tree (two-child case, BLACK
successor spliced out, so `deleteFixup` runs). -/
theorem remove_preserves_rb_invariants_witness :
    RBInvariants
        (⟨node BLACK (node BLACK (node RED NIL 2 NIL) 5 NIL) 10
            (node RED (node BLACK NIL 12 NIL) 15 (node BLACK NIL 20 NIL)), 2, 4⟩ :
          RB_Tree Nat).root ∧
      ∃ (b : Bool) (t2 : RB_Tree Nat),
        remove 10 ⟨node BLACK (node BLACK (node RED NIL 2 NIL) 5 NIL) 10
            (node RED (node BLACK NIL 12 NIL) 15 (node BLACK NIL 20 NIL)), 2, 4⟩ =
          some (b, t2) ∧ RBInvariants t2.root ∧
        (ordered (⟨node BLACK (node BLACK (node RED NIL 2 NIL) 5 NIL) 10
            (node RED (node BLACK NIL 12 NIL) 15 (node BLACK NIL 20 NIL)), 2, 4⟩ :
          RB_Tree Nat).root → b = true) :=
  ⟨by decide, remove_preserves_rb_invariants 10 _ (by decide) (by decide)⟩

/-- C3: for every valid tree and every key `k`, the call `insert(k)` returns and the
in-order key sequence afterwards is a permutation of the previous sequence with one extra
`k` (the previous sequence with `k` put in at one place); exactly one node is added, also
when a key equal to `k` is already present. -/
theorem insert_adds_exactly_one_key [LinearOrder α] (k : α) (t : RB_Tree α) (h : Valid t) :
    ∃ t2 : RB_Tree α, insert k t = some t2 ∧
      (ascending t2.root).Perm (k :: ascending t.root) ∧
      size t2.root = size t.root + 1 ∧
      ∃ A B, ascending t.root = A ++ B ∧ ascending t2.root = A ++ k :: B := by
  obtain ⟨t2, hins, _, A, B, hA, hB⟩ := insert_valid k t h
  refine ⟨t2, hins, ?_, ?_, A, B, hA, hB⟩
  · rw [hA, hB]; exact List.perm_middle
  · rw [size_eq_length, size_eq_length, hA, hB]; simp; omega

/-- Instance of C3: inserting a second 3 into a tree that already holds the key 3. -/
theorem insert_adds_exactly_one_key_witness :
    Valid (⟨node BLACK (node RED NIL 1 NIL) 2 (node RED NIL 3 NIL), 2, 1⟩ : RB_Tree Nat) ∧
      ∃ t2 : RB_Tree Nat,
        insert 3 ⟨node BLACK (node RED NIL 1 NIL) 2 (node RED NIL 3 NIL), 2, 1⟩ = some t2 ∧
        (ascending t2.root).Perm
          (3 :: ascending
            (⟨node BLACK (node RED NIL 1 NIL) 2 (node RED NIL 3 NIL), 2, 1⟩ : RB_Tree Nat).root) ∧
        size t2.root =
          size (⟨node BLACK (node RED NIL 1 NIL) 2 (node RED NIL 3 NIL), 2, 1⟩ :
            RB_Tree Nat).root + 1 ∧
        ∃ A B,
          ascending (⟨node BLACK (node RED NIL 1 NIL) 2 (node RED NIL 3 NIL), 2, 1⟩ :
            RB_Tree Nat).root = A ++ B ∧ ascending t2.root = A ++ 3 :: B :=
  ⟨by decide, insert_adds_exactly_one_key 3 _ (by decide)⟩

/-- C4: for every valid tree and every key `k` that occurs in it, the call `remove(k)`
returns true and the in-order key sequence afterwards is the previous sequence with exactly
one occurrence of `k` taken out; every other entry, further copies of `k` included,
remains. -/
theorem remove_deletes_one_occurrence [LinearOrder α] (k : α) (t : RB_Tree α) (h : Valid t)
    (hk : k ∈ ascending t.root) :
    ∃ t2 : RB_Tree α, remove k t = some (true, t2) ∧
      ∃ A B, ascending t.root = A ++ k :: B ∧ ascending t2.root = A ++ B := by
  obtain ⟨b, t2, hrem, _, _, hcase⟩ := remove_core k t h.rb
  rcases hcase with ⟨_, _, hnil⟩ | ⟨hb, _, A, B, hA, hB⟩
  · exact absurd hnil (search_present k t.root [] h.bst hk)
  · subst hb
    exact ⟨t2, hrem, A, B, hA, hB⟩

/-- Instance of C4: removing one of the three copies of the key 1. -/
theorem remove_deletes_one_occurrence_witness :
    Valid (⟨node BLACK (node RED NIL 1 NIL) 1 (node RED NIL 1 NIL), 2, 1⟩ : RB_Tree Nat) ∧
      (1 : Nat) ∈ ascending
        (⟨node BLACK (node RED NIL 1 NIL) 1 (node RED NIL 1 NIL), 2, 1⟩ : RB_Tree Nat).root ∧
      ∃ t2 : RB_Tree Nat,
        remove 1 ⟨node BLACK (node RED NIL 1 NIL) 1 (node RED NIL 1 NIL), 2, 1⟩ =
          some (true, t2) ∧
        ∃ A B,
          ascending (⟨node BLACK (node RED NIL 1 NIL) 1 (node RED NIL 1 NIL), 2, 1⟩ :
            RB_Tree Nat).root = A ++ 1 :: B ∧ ascending t2.root = A ++ B :=
  ⟨by decide, by decide, remove_deletes_one_occurrence 1 _ (by decide) (by decide)⟩

/-- C5: for every tree (valid or not, the empty tree included) and every key `k` that does
not occur in it, the call `remove(k)` returns false and leaves the tree as it was: the same
shape, colours, keys and counters. -/
theorem remove_absent_key_unchanged [LinearOrder α] (k : α) (t : RB_Tree α)
    (hk : k ∉ ascending t.root) : remove k t = some (false, t) := by
  have hs := search_absent k t.root [] hk
  generalize hsr : search k t.root [] = s at hs
  obtain ⟨z, path⟩ := s
  simp only at hs
  subst hs
  simp only [remove, hsr]

/-- Instance of C5: removing the absent key 8 from a three-node tree. -/
theorem remove_absent_key_unchanged_witness :
    (8 : Nat) ∉ ascending
        (⟨node BLACK (node RED NIL 5 NIL) 10 (node RED NIL 15 NIL), 2, 1⟩ : RB_Tree Nat).root ∧
      remove 8 (⟨node BLACK (node RED NIL 5 NIL) 10 (node RED NIL 15 NIL), 2, 1⟩ : RB_Tree Nat) =
        some (false, ⟨node BLACK (node RED NIL 5 NIL) 10 (node RED NIL 15 NIL), 2, 1⟩) :=
  ⟨by decide, remove_absent_key_unchanged 8 _ (by decide)⟩

/-- C6: every tree built from the empty tree by a sequence of `insert` and `remove` calls
exists (all the calls return) and its in-order key sequence is non-decreasing; equivalently
at every node the keys of the left subtree are `≤` the node's key and those of the right
subtree are `≥` it. -/
theorem built_tree_is_ordered [LinearOrder α] (ops : List (Op α)) :
    ∃ t : RB_Tree α, build ops = some t ∧
      (ascending t.root).Sorted (fun a b => a ≤ b) ∧ ordered t.root := by
  obtain ⟨t, ht, hv⟩ := runOps_valid ops RB_Tree.empty Valid.empty
  exact ⟨t, ht, (ordered_iff_sorted t.root).1 hv.bst, hv.bst⟩

/-- C7: for every tree that satisfies the BST ordering invariant (a key equal to a node's
key may sit in either subtree) and every key `k`, `containsKey(k)` is true if and only if
some node of the tree holds `k`. -/
theorem containsKey_iff_key_present [LinearOrder α] (k : α) (t : RB_Tree α)
    (h : ordered t.root) : containsKey k t = true ↔ k ∈ ascending t.root := by
  constructor
  · intro hc
    by_contra hk
    have hs := search_absent k t.root [] hk
    generalize hsr : search k t.root [] = s at hs
    obtain ⟨z, path⟩ := s
    simp only at hs
    subst hs
    simp [containsKey, hsr] at hc
  · intro hk
    have hs := search_present k t.root [] h hk
    generalize hsr : search k t.root [] = s at hs
    obtain ⟨z, path⟩ := s
    cases z with
    | NIL => exact absurd rfl hs
    | node c l k2 r => simp only [containsKey, hsr]

/-- Instance of C7: the key 7 sits on both sides of a node holding 7. -/
theorem containsKey_iff_key_present_witness :
    ordered (⟨node BLACK (node BLACK (node RED NIL 3 NIL) 7 NIL) 7
        (node BLACK NIL 7 (node RED NIL 9 NIL)), 2, 3⟩ : RB_Tree Nat).root ∧
      (containsKey 9 (⟨node BLACK (node BLACK (node RED NIL 3 NIL) 7 NIL) 7
          (node BLACK NIL 7 (node RED NIL 9 NIL)), 2, 3⟩ : RB_Tree Nat) = true ↔
        (9 : Nat) ∈ ascending (⟨node BLACK (node BLACK (node RED NIL 3 NIL) 7 NIL) 7
          (node BLACK NIL 7 (node RED NIL 9 NIL)), 2, 3⟩ : RB_Tree Nat).root) :=
  ⟨by decide, containsKey_iff_key_present 9 _ (by decide)⟩

/-- C8: for every tree that satisfies the red-black invariants and whose counters are exact,
and every key `k`, both `insert(k)` and `remove(k)` return with the counters exact again, so
that `getNumNodes()` is the number of nodes reachable from the root. -/
theorem counters_stay_exact [LinearOrder α] (k : α) (t : RB_Tree α) (h : RBInvariants t.root)
    (hc : countersExact t) :
    (∃ t2 : RB_Tree α, insert k t = some t2 ∧ countersExact t2 ∧
        getNumRedNodes t2 = countRed t2.root ∧ getNumBlackNodes t2 = countBlack t2.root ∧
        getNumNodes t2 = size t2.root) ∧
      (∃ (b : Bool) (t2 : RB_Tree α), remove k t = some (b, t2) ∧ countersExact t2 ∧
        getNumRedNodes t2 = countRed t2.root ∧ getNumBlackNodes t2 = countBlack t2.root ∧
        getNumNodes t2 = size t2.root) := by
  constructor
  · obtain ⟨t2, hins, _, hcnt, _⟩ := insert_core k t h
    have h2 := hcnt hc
    refine ⟨t2, hins, h2, h2.1, h2.2, ?_⟩
    rw [size_eq_counts, getNumNodes, h2.1, h2.2]
  · obtain ⟨b, t2, hrem, _, hcnt, _⟩ := remove_core k t h
    have h2 := hcnt hc
    refine ⟨b, t2, hrem, h2, h2.1, h2.2, ?_⟩
    rw [size_eq_counts, getNumNodes, h2.1, h2.2]

/-- Instance of C8: inserting and removing the key 12 in a seven-node tree. -/
theorem counters_stay_exact_witness :
    RBInvariants (⟨node BLACK (node BLACK (node RED NIL 2 NIL) 5 NIL) 10
        (node RED (node BLACK NIL 12 NIL) 15 (node BLACK NIL 20 NIL)), 2, 4⟩ :
          RB_Tree Nat).root ∧
      countersExact (⟨node BLACK (node BLACK (node RED NIL 2 NIL) 5 NIL) 10
        (node RED (node BLACK NIL 12 NIL) 15 (node BLACK NIL 20 NIL)), 2, 4⟩ : RB_Tree Nat) ∧
      ((∃ t2 : RB_Tree Nat,
          insert 12 ⟨node BLACK (node BLACK (node RED NIL 2 NIL) 5 NIL) 10
            (node RED (node BLACK NIL 12 NIL) 15 (node BLACK NIL 20 NIL)), 2, 4⟩ = some t2 ∧
          countersExact t2 ∧ getNumRedNodes t2 = countRed t2.root ∧
          getNumBlackNodes t2 = countBlack t2.root ∧ getNumNodes t2 = size t2.root) ∧
        (∃ (b : Bool) (t2 : RB_Tree Nat),
          remove 12 ⟨node BLACK (node BLACK (node RED NIL 2 NIL) 5 NIL) 10
            (node RED (node BLACK NIL 12 NIL) 15 (node BLACK NIL 20 NIL)), 2, 4⟩ =
            some (b, t2) ∧
          countersExact t2 ∧ getNumRedNodes t2 = countRed t2.root ∧
          getNumBlackNodes t2 = countBlack t2.root ∧ getNumNodes t2 = size t2.root)) :=
  ⟨by decide, by decide, counters_stay_exact 12 _ (by decide) (by decide)⟩

/-- C9: every tree built from the empty tree by a sequence of `insert` and `remove` calls
exists, and with `n = getNumNodes()` and `h = getTreeHeight()` its height is logarithmic
in its size: `2^(h+1) ≤ (n+1)^2`, and `h + 1 ≤ 2 * log2 (n + 1)` already with the logarithm
rounded down (`h ≥ -1`, so `h + 1` is a natural number). -/
theorem built_tree_height_logarithmic [LinearOrder α] (ops : List (Op α)) :
    ∃ t : RB_Tree α, build ops = some t ∧ -1 ≤ getTreeHeight t ∧
      2 ^ (getTreeHeight t + 1).toNat ≤ (getNumNodes t + 1) ^ 2 ∧
      getTreeHeight t + 1 ≤ 2 * (Nat.log 2 (getNumNodes t + 1) : Int) := by
  obtain ⟨t, ht, hv⟩ := runOps_valid ops RB_Tree.empty Valid.empty
  have hn : getNumNodes t = size t.root := by
    rw [size_eq_counts, getNumNodes, hv.counters.1, hv.counters.2]
  obtain ⟨h1, h2⟩ := height_bound hv.rb
  refine ⟨t, ht, height_ge _, ?_, ?_⟩
  · rw [hn]; exact h1
  · rw [hn]; exact h2

/-- C10 fails on the code: the tree built by `insert(1)` three times is valid and holds an
equal key in the left child of its root; `copyTree` links the copy of that child to the
right (`1 < 1` is false) where the copy of the right child then replaces it, so the copy has
a different shape and neither the copy-constructed nor the assigned tree compares equal to
the source under `operator==`, from either side. -/
theorem copy_of_duplicate_keys_not_equal :
    build [Op.insert 1, Op.insert 1, Op.insert 1] =
        some (⟨node BLACK (node RED NIL 1 NIL) 1 (node RED NIL 1 NIL), 2, 1⟩ : RB_Tree Nat) ∧
      Valid (⟨node BLACK (node RED NIL 1 NIL) 1 (node RED NIL 1 NIL), 2, 1⟩ : RB_Tree Nat) ∧
      copyConstruct (⟨node BLACK (node RED NIL 1 NIL) 1 (node RED NIL 1 NIL), 2, 1⟩ :
          RB_Tree Nat) = ⟨node BLACK NIL 1 (node RED NIL 1 NIL), 2, 1⟩ ∧
      operator_eq false
          (copyConstruct (⟨node BLACK (node RED NIL 1 NIL) 1 (node RED NIL 1 NIL), 2, 1⟩ :
            RB_Tree Nat))
          ⟨node BLACK (node RED NIL 1 NIL) 1 (node RED NIL 1 NIL), 2, 1⟩ = false ∧
      operator_eq false
          (⟨node BLACK (node RED NIL 1 NIL) 1 (node RED NIL 1 NIL), 2, 1⟩ : RB_Tree Nat)
          (copyConstruct ⟨node BLACK (node RED NIL 1 NIL) 1 (node RED NIL 1 NIL), 2, 1⟩) =
        false ∧
      (operator_assign false RB_Tree.empty
          (⟨node BLACK (node RED NIL 1 NIL) 1 (node RED NIL 1 NIL), 2, 1⟩ : RB_Tree Nat)).map
          (fun c => operator_eq false c
            ⟨node BLACK (node RED NIL 1 NIL) 1 (node RED NIL 1 NIL), 2, 1⟩) = some false := by
  decide

/-! ## `insert` on a tree whose root is BLACK (no other invariant assumed) -/

theorem isNIL_eq_false_iff {t : RB_Node α} :
    t.isNIL = false ↔ ∃ c l k r, t = node c l k r := by
  cases t with
  | NIL => simp [RB_Node.isNIL]
  | node c l k r => simp [RB_Node.isNIL]

theorem insertFixupStep_total [LinearOrder α] {x : RB_Node α} {path : List (Frame α)}
    (nr nb : Nat) (hx : x.isNIL = false) (htop : topColor path BLACK = BLACK)
    (hp : parentColor path = RED) :
    ∃ x2 path2 nr2 nb2, insertFixupStep x path nr nb = some (x2, path2, nr2, nb2) ∧
      x2.isNIL = false ∧ topColor path2 BLACK = BLACK ∧
      (parentColor path2 = RED → path2.length < path.length) ∧
      nb ≤ nb2 ∧ (nb2 = nb → nr2 = nr) := by
  obtain ⟨xc, xl, xk, xr, rfl⟩ := isNIL_eq_false_iff.1 hx
  rcases path with _ | ⟨f1, _ | ⟨f2, rest⟩⟩
  · simp at hp
  · simp at hp
    simp [topColor, hp] at htop
  · have htop2 : topColor rest BLACK = BLACK := topColor_black_of (c := f2.color) htop
    rcases f1 with ⟨pc, pk, pr⟩ | ⟨pc, pl, pk⟩ <;> rcases f2 with ⟨gc, gk, u⟩ | ⟨gc, u, gk⟩
    all_goals
      by_cases hu : u.color = RED
      · simp only [insertFixupStep, hu, if_true]
        refine ⟨_, _, _, _, rfl, rfl, htop2, ?_, by omega, by omega⟩
        intro _; simp only [List.length_cons]; omega
      · simp only [insertFixupStep, leftRotate, rightRotate, hu, if_false]
        refine ⟨_, _, _, _, rfl, rfl, htop2, ?_, le_refl _, fun _ => rfl⟩
        intro h; simp [Frame.color] at h

theorem insertFixupLoop_total [LinearOrder α] (fuel : Nat) :
    ∀ (x : RB_Node α) (path : List (Frame α)) (nr nb : Nat), x.isNIL = false →
      topColor path BLACK = BLACK → 0 < fuel → (parentColor path = RED → path.length < fuel) →
      ∃ root nr2 nb2, insertFixupLoop fuel x path nr nb = some (root, nr2, nb2) ∧
        nb ≤ nb2 ∧ (nb2 = nb → nr2 = nr) := by
  induction fuel with
  | zero => intro x path nr nb _ _ h0; omega
  | succ fuel ih =>
    intro x path nr nb hx htop _ hfuel
    by_cases hp : parentColor path = RED
    · obtain ⟨x1, path1, nr1, nb1, hstep, hx1, htop1, hlen1, hle1, heq1⟩ :=
        insertFixupStep_total nr nb hx htop hp
      have hfuel0 : 0 < fuel := by
        have := hfuel hp
        cases path with
        | nil => simp at hp
        | cons f rest => simp only [List.length_cons] at this; omega
      obtain ⟨root, nr2, nb2, hloop, hle2, heq2⟩ :=
        ih x1 path1 nr1 nb1 hx1 htop1 hfuel0
          (fun h => by have := hlen1 h; have := hfuel hp; omega)
      refine ⟨root, nr2, nb2, ?_, by omega, ?_⟩
      · simp only [insertFixupLoop, hp, if_true, hstep, hloop]
      · intro h
        have h1 : nb1 = nb := by omega
        rw [heq2 (by omega), heq1 h1]
    · exact ⟨zip x path, nr, nb, by simp only [insertFixupLoop, hp, if_false], le_refl _,
        fun _ => rfl⟩

theorem topColor_descend [LinearOrder α] (key : α) :
    ∀ (t : RB_Node α) (path : List (Frame α)), topColor path t.color = BLACK →
      topColor (RB_insert_descend key t path) BLACK = BLACK := by
  intro t
  induction t with
  | NIL => intro path h; exact h
  | node c l k r ihl ihr =>
    intro path h
    simp only [RB_insert_descend]
    split
    · exact ihl _ h
    · exact ihr _ h

/-- On a tree whose root is BLACK `insert` returns; it never lowers the black counter, and
when it leaves the black counter as it was it has raised the red counter by one. -/
theorem insert_total [LinearOrder α] (k : α) (t : RB_Tree α) (h : t.root.color = BLACK) :
    ∃ t2 : RB_Tree α, insert k t = some t2 ∧ t.numBlackNodes ≤ t2.numBlackNodes ∧
      (t2.numBlackNodes = t.numBlackNodes → t2.numRedNodes = t.numRedNodes + 1) := by
  have htop := topColor_descend k t.root [] h
  have hlink := RB_insert_link_descend k t.root [] rfl
  generalize hpe : RB_insert_descend k t.root [] = path at htop hlink
  obtain ⟨root, nr2, nb2, hloop, hle, heq⟩ :=
    insertFixupLoop_total (path.length + 1) (node RED NIL k NIL) path (t.numRedNodes + 1)
      t.numBlackNodes rfl htop (Nat.succ_pos _) (fun _ => Nat.lt_succ_self _)
  by_cases hroot : root.color = RED
  · refine ⟨⟨root.setBlack, nr2 - 1, nb2 + 1⟩, ?_, ?_, ?_⟩
    · simp only [insert, RB_insert, hpe, hlink, insertFixup, hloop, hroot, if_true]
    · show t.numBlackNodes ≤ nb2 + 1
      omega
    · intro h2
      have : nb2 + 1 = t.numBlackNodes := h2
      omega
  · refine ⟨⟨root.setBlack, nr2, nb2⟩, ?_, hle, ?_⟩
    · simp only [insert, RB_insert, hpe, hlink, insertFixup, hloop, hroot, if_false]
    · intro h2
      exact heq h2

/-! ## Copies -/

theorem copyTree_color [LinearOrder α] (t : RB_Node α) : (copyTree t).color = t.color := by
  cases t with
  | NIL => rfl
  | node c l k r =>
    simp only [copyTree]
    have h1 : ∀ p q : RB_Node α, (copyTree_link p q).color = p.color := by
      intro p q
      cases p with
      | NIL => cases q <;> rfl
      | node pc pl pk pr =>
        cases q with
        | NIL => rfl
        | node qc ql qk qr =>
          simp only [copyTree_link]
          split <;> rfl
    rw [h1, h1]; rfl

/-! ## `destroyTree` -/

theorem destroyTreeLoop_spec [LinearOrder α] (fuel : Nat) :
    ∀ t : RB_Tree α, RBInvariants t.root → size t.root < fuel →
      ∃ t2 : RB_Tree α, destroyTreeLoop fuel t = some t2 ∧ t2.root = NIL ∧
        (countersExact t → countersExact t2) := by
  induction fuel with
  | zero => intro t _ h; omega
  | succ fuel ih =>
    intro t hrb hsize
    obtain ⟨root, nr, nb⟩ := t
    cases root with
    | NIL => exact ⟨⟨NIL, nr, nb⟩, rfl, rfl, fun h => h⟩
    | node c l k r =>
      obtain ⟨t1, hdel, hrb1, hasc1, hcnt1⟩ := RB_delete_spec nr nb (CursorInv.root hrb)
      have hs1 : size t1.root < fuel := by
        have e := congrArg List.length hasc1
        simp only [pathLeft, pathRight, List.nil_append, List.append_nil,
          List.length_append] at e
        rw [size_eq_length, e]
        simp only [size, size_eq_length] at hsize
        omega
      obtain ⟨t2, hloop, hnil, hcnt2⟩ := ih t1 hrb1 hs1
      refine ⟨t2, ?_, hnil, fun hc => hcnt2 (hcnt1 hc)⟩
      simp only [destroyTreeLoop, hdel, hloop]

theorem destroyTree_spec [LinearOrder α] (t : RB_Tree α) (h : RBInvariants t.root) :
    ∃ t2 : RB_Tree α, destroyTree t = some t2 ∧ t2.root = NIL ∧
      (countersExact t → t2 = RB_Tree.empty) := by
  obtain ⟨t2, hloop, hnil, hcnt⟩ := destroyTreeLoop_spec (size t.root + 1) t h (Nat.lt_succ_self _)
  refine ⟨t2, hloop, hnil, fun hc => ?_⟩
  obtain ⟨h1, h2⟩ := hcnt hc
  obtain ⟨root, nr, nb⟩ := t2
  simp only at hnil h1 h2
  subst hnil
  simp only [countRed, countBlack] at h1 h2
  subst h1 h2
  rfl

/-! ## Height as the longest path -/

theorem foldr_max_append (l1 l2 : List Nat) :
    (l1 ++ l2).foldr max 0 = max (l1.foldr max 0) (l2.foldr max 0) := by
  induction l1 with
  | nil => simp
  | cons a l ih => simp only [List.cons_append, List.foldr_cons, ih, max_assoc]

theorem foldr_max_map_succ (l : List Nat) (h : l ≠ []) :
    (l.map (fun d => d + 1)).foldr max 0 = l.foldr max 0 + 1 := by
  induction l with
  | nil => exact absurd rfl h
  | cons a l ih =>
    cases l with
    | nil => simp
    | cons b l2 =>
      have := ih (by simp)
      simp only [List.map_cons, List.foldr_cons] at this ⊢
      rw [this]
      omega

theorem leafDepths_ne_nil (t : RB_Node α) (h : t.isNIL = false) : leafDepths t ≠ [] := by
  induction t with
  | NIL => simp [RB_Node.isNIL] at h
  | node c l k r ihl ihr =>
    cases l with
    | NIL =>
      cases r with
      | NIL => simp [leafDepths]
      | node rc rl rk rr =>
        simp only [leafDepths, ne_eq, List.map_eq_nil_iff]
        exact ihr rfl
    | node lc ll lk lr =>
      simp only [leafDepths, ne_eq, List.map_eq_nil_iff, List.append_eq_nil, not_and]
      intro h2
      exact absurd h2 (ihl rfl)

theorem longestPath_NIL : longestPath (NIL : RB_Node α) = 0 := rfl

theorem height_eq_longestPath (t : RB_Node α) (h : t.isNIL = false) :
    calculateSubtreeHeight t = (longestPath t : Int) := by
  induction t with
  | NIL => simp [RB_Node.isNIL] at h
  | node c l k r ihl ihr =>
    cases l with
    | NIL =>
      cases r with
      | NIL => simp [calculateSubtreeHeight, maximum, longestPath, leafDepths]
      | node rc rl rk rr =>
        have h2 := ihr rfl
        have e : longestPath (node c NIL k (node rc rl rk rr)) =
            longestPath (node rc rl rk rr) + 1 := by
          simp only [longestPath, leafDepths]
          exact foldr_max_map_succ _ (leafDepths_ne_nil _ rfl)
        rw [e]
        simp only [calculateSubtreeHeight, maximum] at h2 ⊢
        push_cast
        split <;> omega
    | node lc ll lk lr =>
      have h1 := ihl rfl
      have e : longestPath (node c (node lc ll lk lr) k r) =
          max (longestPath (node lc ll lk lr)) (longestPath r) + 1 := by
        simp only [longestPath, leafDepths]
        rw [foldr_max_map_succ, foldr_max_append]
        simp only [ne_eq, List.append_eq_nil, not_and]
        intro h2
        exact absurd h2 (leafDepths_ne_nil _ rfl)
      rw [e]
      cases r with
      | NIL =>
        rw [longestPath_NIL]
        simp only [calculateSubtreeHeight, maximum] at h1 ⊢
        push_cast
        split <;> omega
      | node rc rl rk rr =>
        have h2 := ihr rfl
        simp only [calculateSubtreeHeight, maximum] at h1 h2 ⊢
        push_cast
        split <;> omega

/-! ## The claims C11 to C20 -/

/-- C11 fails on the code: the source `s` built by `insert(1)` three times holds an equal
key in the left child of its root.  After `d = s` (with `d` holding the key 5 before) and
after copy-construction from `s` the new tree has only two of the three nodes of `s`: the
copy of the left child was linked to the right and then replaced.  The counters are copied
verbatim (2 and 1) and so no longer count the nodes of the copy. -/
theorem assignment_of_duplicate_keys_loses_node :
    build [Op.insert 1, Op.insert 1, Op.insert 1] =
        some (⟨node BLACK (node RED NIL 1 NIL) 1 (node RED NIL 1 NIL), 2, 1⟩ : RB_Tree Nat) ∧
      build [Op.insert 5] = some (⟨node BLACK NIL 5 NIL, 0, 1⟩ : RB_Tree Nat) ∧
      operator_assign false (⟨node BLACK NIL 5 NIL, 0, 1⟩ : RB_Tree Nat)
          ⟨node BLACK (node RED NIL 1 NIL) 1 (node RED NIL 1 NIL), 2, 1⟩ =
        some ⟨node BLACK NIL 1 (node RED NIL 1 NIL), 2, 1⟩ ∧
      copyConstruct (⟨node BLACK (node RED NIL 1 NIL) 1 (node RED NIL 1 NIL), 2, 1⟩ :
          RB_Tree Nat) = ⟨node BLACK NIL 1 (node RED NIL 1 NIL), 2, 1⟩ ∧
      (node BLACK NIL 1 (node RED NIL 1 NIL) : RB_Node Nat) ≠
        node BLACK (node RED NIL 1 NIL) 1 (node RED NIL 1 NIL) ∧
      size (node BLACK NIL 1 (node RED NIL 1 NIL) : RB_Node Nat) = 2 ∧
      ¬ countersExact (⟨node BLACK NIL 1 (node RED NIL 1 NIL), 2, 1⟩ : RB_Tree Nat) := by
  decide

/-- C12 fails on the code: with `a` built by `insert(1)` three times and `b` by
`insert(2)`, the sum `a + b` holds the keys 1, 1, 2: one of the three copies of 1 is lost
when `operator+` copy-constructs `sumTree` from `a`.  (If `return` copies the result once
more, a second copy of 1 is lost and the keys are 1, 2.) -/
theorem sum_of_duplicate_keys_loses_key :
    build [Op.insert 1, Op.insert 1, Op.insert 1] =
        some (⟨node BLACK (node RED NIL 1 NIL) 1 (node RED NIL 1 NIL), 2, 1⟩ : RB_Tree Nat) ∧
      build [Op.insert 2] = some (⟨node BLACK NIL 2 NIL, 0, 1⟩ : RB_Tree Nat) ∧
      (operator_plus (⟨node BLACK (node RED NIL 1 NIL) 1 (node RED NIL 1 NIL), 2, 1⟩ :
          RB_Tree Nat) ⟨node BLACK NIL 2 NIL, 0, 1⟩).map (fun s => ascending s.root) =
        some [1, 1, 2] ∧
      ((operator_plus (⟨node BLACK (node RED NIL 1 NIL) 1 (node RED NIL 1 NIL), 2, 1⟩ :
          RB_Tree Nat) ⟨node BLACK NIL 2 NIL, 0, 1⟩).map copyConstruct).map
          (fun s => ascending s.root) = some [1, 2] ∧
      List.count 1 ([1, 1, 2] : List Nat) ≠
        List.count 1 (ascending (node BLACK (node RED NIL 1 NIL) 1 (node RED NIL 1 NIL) :
          RB_Node Nat)) + List.count 1 (ascending (node BLACK NIL 2 NIL : RB_Node Nat)) := by
  decide

/-- C13 fails on the code: with `a` built by `insert(1)` twice and `b`, `c` by `insert(1)`
once each, `(a + b) + c` holds three keys and `a + (b + c)` holds four.  The sum `a + b`
has an equal key in the left child of its root and loses it when the second `operator+`
copies it.  The two sides also differ (two keys against three) when every `operator+`
copies its result once more on `return`. -/
theorem sum_not_associative_on_keys :
    build [Op.insert 1, Op.insert 1] =
        some (⟨node BLACK NIL 1 (node RED NIL 1 NIL), 1, 1⟩ : RB_Tree Nat) ∧
      build [Op.insert 1] = some (⟨node BLACK NIL 1 NIL, 0, 1⟩ : RB_Tree Nat) ∧
      ((operator_plus (⟨node BLACK NIL 1 (node RED NIL 1 NIL), 1, 1⟩ : RB_Tree Nat)
            ⟨node BLACK NIL 1 NIL, 0, 1⟩).bind
          (fun ab => operator_plus ab ⟨node BLACK NIL 1 NIL, 0, 1⟩)).map
          (fun s => ascending s.root) = some [1, 1, 1] ∧
      ((operator_plus (⟨node BLACK NIL 1 NIL, 0, 1⟩ : RB_Tree Nat)
            ⟨node BLACK NIL 1 NIL, 0, 1⟩).bind
          (fun bc => operator_plus ⟨node BLACK NIL 1 (node RED NIL 1 NIL), 1, 1⟩ bc)).map
          (fun s => ascending s.root) = some [1, 1, 1, 1] ∧
      ((((operator_plus (⟨node BLACK NIL 1 (node RED NIL 1 NIL), 1, 1⟩ : RB_Tree Nat)
            ⟨node BLACK NIL 1 NIL, 0, 1⟩).map copyConstruct).bind
          (fun ab => operator_plus ab ⟨node BLACK NIL 1 NIL, 0, 1⟩)).map copyConstruct).map
          (fun s => ascending s.root) = some [1, 1] ∧
      ((((operator_plus (⟨node BLACK NIL 1 NIL, 0, 1⟩ : RB_Tree Nat)
            ⟨node BLACK NIL 1 NIL, 0, 1⟩).map copyConstruct).bind
          (fun bc => operator_plus ⟨node BLACK NIL 1 (node RED NIL 1 NIL), 1, 1⟩ bc)).map
          copyConstruct).map (fun s => ascending s.root) = some [1, 1, 1] := by
  decide

/-- C14 fails on the code: with `a` empty and `b` built by `insert(1)` three times, the
sum `a + b` is the three-node tree with an equal key in the left child of the root, while
after `a += b` the tree `a` has two nodes only: the assignment inside `operator+=` copies
the sum by `copyTree` and loses that left child. -/
theorem plus_assign_differs_from_sum :
    build [Op.insert 1, Op.insert 1, Op.insert 1] =
        some (⟨node BLACK (node RED NIL 1 NIL) 1 (node RED NIL 1 NIL), 2, 1⟩ : RB_Tree Nat) ∧
      operator_plus (RB_Tree.empty : RB_Tree Nat)
          ⟨node BLACK (node RED NIL 1 NIL) 1 (node RED NIL 1 NIL), 2, 1⟩ =
        some ⟨node BLACK (node RED NIL 1 NIL) 1 (node RED NIL 1 NIL), 2, 1⟩ ∧
      operator_plus_assign (RB_Tree.empty : RB_Tree Nat)
          ⟨node BLACK (node RED NIL 1 NIL) 1 (node RED NIL 1 NIL), 2, 1⟩ =
        some ⟨node BLACK NIL 1 (node RED NIL 1 NIL), 2, 1⟩ ∧
      operator_plus_assign (RB_Tree.empty : RB_Tree Nat)
          ⟨node BLACK (node RED NIL 1 NIL) 1 (node RED NIL 1 NIL), 2, 1⟩ ≠
        operator_plus (RB_Tree.empty : RB_Tree Nat)
          ⟨node BLACK (node RED NIL 1 NIL) 1 (node RED NIL 1 NIL), 2, 1⟩ := by
  decide

/-- C15: for every tree that satisfies the red-black invariants with exact counters,
`destroyTree()` returns and leaves the empty tree: `isEmpty()` is true, `getTreeHeight()`
is -1 and both counters are 0; a second `destroyTree()` returns the same state. -/
theorem destroyTree_leaves_empty_tree [LinearOrder α] (t : RB_Tree α)
    (h : RBInvariants t.root) (hc : countersExact t) :
    ∃ t2 : RB_Tree α, destroyTree t = some t2 ∧ isEmpty t2 = true ∧ getTreeHeight t2 = -1 ∧
      getNumRedNodes t2 = 0 ∧ getNumBlackNodes t2 = 0 ∧ destroyTree t2 = some t2 := by
  obtain ⟨t2, hd, _, he⟩ := destroyTree_spec t h
  obtain rfl := he hc
  exact ⟨RB_Tree.empty, hd, rfl, rfl, rfl, rfl, rfl⟩

/-- Instance of C15: destroying a seven-node tree. -/
theorem destroyTree_leaves_empty_tree_witness :
    RBInvariants (⟨node BLACK (node BLACK (node RED NIL 2 NIL) 5 NIL) 10
        (node RED (node BLACK NIL 12 NIL) 15 (node BLACK NIL 20 NIL)), 2, 4⟩ :
          RB_Tree Nat).root ∧
      countersExact (⟨node BLACK (node BLACK (node RED NIL 2 NIL) 5 NIL) 10
        (node RED (node BLACK NIL 12 NIL) 15 (node BLACK NIL 20 NIL)), 2, 4⟩ : RB_Tree Nat) ∧
      ∃ t2 : RB_Tree Nat,
        destroyTree ⟨node BLACK (node BLACK (node RED NIL 2 NIL) 5 NIL) 10
          (node RED (node BLACK NIL 12 NIL) 15 (node BLACK NIL 20 NIL)), 2, 4⟩ = some t2 ∧
        isEmpty t2 = true ∧ getTreeHeight t2 = -1 ∧ getNumRedNodes t2 = 0 ∧
        getNumBlackNodes t2 = 0 ∧ destroyTree t2 = some t2 :=
  ⟨by decide, by decide, destroyTree_leaves_empty_tree _ (by decide) (by decide)⟩

/-- C16 fails on the code: the tree built by inserting 4, 2, 6, 1, 3, 5, 7, 0 and removing 0
and the tree built by inserting 4, 2, 6, 1, 3, 5, 7, 8 and removing 8 are both valid, have
the same shape, the same keys and the same counters (3 RED, 4 BLACK), but the nodes 2, 1, 3,
6, 5, 7 have different colours in the two; `operator==` returns true for them. -/
theorem equal_trees_with_different_colours :
    build [Op.insert 4, Op.insert 2, Op.insert 6, Op.insert 1, Op.insert 3, Op.insert 5,
        Op.insert 7, Op.insert 0, Op.remove 0] =
      some (⟨node BLACK (node RED (node BLACK NIL 1 NIL) 2 (node BLACK NIL 3 NIL)) 4
        (node BLACK (node RED NIL 5 NIL) 6 (node RED NIL 7 NIL)), 3, 4⟩ : RB_Tree Nat) ∧
      build [Op.insert 4, Op.insert 2, Op.insert 6, Op.insert 1, Op.insert 3, Op.insert 5,
        Op.insert 7, Op.insert 8, Op.remove 8] =
      some (⟨node BLACK (node BLACK (node RED NIL 1 NIL) 2 (node RED NIL 3 NIL)) 4
        (node RED (node BLACK NIL 5 NIL) 6 (node BLACK NIL 7 NIL)), 3, 4⟩ : RB_Tree Nat) ∧
      Valid (⟨node BLACK (node RED (node BLACK NIL 1 NIL) 2 (node BLACK NIL 3 NIL)) 4
        (node BLACK (node RED NIL 5 NIL) 6 (node RED NIL 7 NIL)), 3, 4⟩ : RB_Tree Nat) ∧
      Valid (⟨node BLACK (node BLACK (node RED NIL 1 NIL) 2 (node RED NIL 3 NIL)) 4
        (node RED (node BLACK NIL 5 NIL) 6 (node BLACK NIL 7 NIL)), 3, 4⟩ : RB_Tree Nat) ∧
      operator_eq false
        (⟨node BLACK (node RED (node BLACK NIL 1 NIL) 2 (node BLACK NIL 3 NIL)) 4
          (node BLACK (node RED NIL 5 NIL) 6 (node RED NIL 7 NIL)), 3, 4⟩ : RB_Tree Nat)
        ⟨node BLACK (node BLACK (node RED NIL 1 NIL) 2 (node RED NIL 3 NIL)) 4
          (node RED (node BLACK NIL 5 NIL) 6 (node BLACK NIL 7 NIL)), 3, 4⟩ = true ∧
      (node BLACK (node RED (node BLACK NIL 1 NIL) 2 (node BLACK NIL 3 NIL)) 4
          (node BLACK (node RED NIL 5 NIL) 6 (node RED NIL 7 NIL)) : RB_Node Nat) ≠
        node BLACK (node BLACK (node RED NIL 1 NIL) 2 (node RED NIL 3 NIL)) 4
          (node RED (node BLACK NIL 5 NIL) 6 (node BLACK NIL 7 NIL)) := by
  decide

/-- C17: for every tree `t1` whose root is BLACK (every tree between two public calls) and
every key `k`: assigning `t1` to a tree `t2` (any tree satisfying the red-black invariants)
and then inserting `k` into `t2` both return, and afterwards `t1 == t2` is false and
`t1 != t2` is true.  Trees are values here, so `t1` is the same before and after the
insertion into `t2`.  And `t == t` is true for every tree `t`. -/
theorem assigned_then_inserted_differs [LinearOrder α] (k : α) (t1 d t : RB_Tree α)
    (h1 : t1.root.color = BLACK) (hd : RBInvariants d.root) :
    (∃ t2 t3 : RB_Tree α, operator_assign false d t1 = some t2 ∧ insert k t2 = some t3 ∧
        operator_eq false t1 t3 = false ∧ operator_ne false t1 t3 = true) ∧
      operator_eq true t t = true := by
  refine ⟨?_, rfl⟩
  obtain ⟨d2, hd2, _, _⟩ := destroyTree_spec d hd
  have hcol : (copyTree t1.root).color = BLACK := (copyTree_color _).trans h1
  obtain ⟨t3, hins, hle, heq⟩ :=
    insert_total k ⟨copyTree t1.root, t1.numRedNodes, t1.numBlackNodes⟩ hcol
  have hne : operator_eq false t1 t3 = false := by
    have hcnt : (decide (t1.numRedNodes = t3.numRedNodes) &&
        decide (t1.numBlackNodes = t3.numBlackNodes)) = false := by
      by_cases hb : t3.numBlackNodes = t1.numBlackNodes
      · have := heq hb
        simp only at this
        have hr : t1.numRedNodes ≠ t3.numRedNodes := by omega
        simp [hr]
      · have hb2 : t1.numBlackNodes ≠ t3.numBlackNodes := fun e => hb e.symm
        simp [hb2]
    simp only [operator_eq, Bool.not_false, if_true, hcnt, Bool.false_and]
  refine ⟨_, t3, ?_, hins, hne, ?_⟩
  · simp only [operator_assign, hd2]
    rfl
  · simp only [operator_ne, hne, Bool.not_false]

/-- Instance of C17: `t2 = t1; t2.insert(56)` for a three-node `t1` and an old `t2` holding
one key. -/
theorem assigned_then_inserted_differs_witness :
    (⟨node BLACK (node RED NIL 5 NIL) 10 (node RED NIL 15 NIL), 2, 1⟩ :
        RB_Tree Nat).root.color = BLACK ∧
      RBInvariants (⟨node BLACK NIL 7 NIL, 0, 1⟩ : RB_Tree Nat).root ∧
      ((∃ t2 t3 : RB_Tree Nat,
          operator_assign false ⟨node BLACK NIL 7 NIL, 0, 1⟩
            ⟨node BLACK (node RED NIL 5 NIL) 10 (node RED NIL 15 NIL), 2, 1⟩ = some t2 ∧
          insert 56 t2 = some t3 ∧
          operator_eq false ⟨node BLACK (node RED NIL 5 NIL) 10 (node RED NIL 15 NIL), 2, 1⟩
            t3 = false ∧
          operator_ne false ⟨node BLACK (node RED NIL 5 NIL) 10 (node RED NIL 15 NIL), 2, 1⟩
            t3 = true) ∧
        operator_eq true (RB_Tree.empty : RB_Tree Nat) RB_Tree.empty = true) :=
  ⟨by decide, by decide, assigned_then_inserted_differs 56 _ _ _ (by decide) (by decide)⟩

/-- C18 fails on the code: copy-construct `c` from the tree built by `insert(1)` three
times (the copy has two nodes but the counters 2 and 1 of the source), then empty `c` by
`remove(1)` twice or by `destroyTree()`.  `isEmpty()` is true for `c`, but its counters are
1 and 0, so `c == e` is false for a newly constructed tree `e`. -/
theorem emptied_copy_differs_from_new_tree :
    build [Op.insert 1, Op.insert 1, Op.insert 1] =
        some (⟨node BLACK (node RED NIL 1 NIL) 1 (node RED NIL 1 NIL), 2, 1⟩ : RB_Tree Nat) ∧
      ((remove 1 (copyConstruct (⟨node BLACK (node RED NIL 1 NIL) 1 (node RED NIL 1 NIL), 2, 1⟩ :
          RB_Tree Nat))).bind (fun p => remove 1 p.2)) = some (true, ⟨NIL, 1, 0⟩) ∧
      destroyTree (copyConstruct (⟨node BLACK (node RED NIL 1 NIL) 1 (node RED NIL 1 NIL), 2, 1⟩ :
          RB_Tree Nat)) = some ⟨NIL, 1, 0⟩ ∧
      isEmpty (⟨NIL, 1, 0⟩ : RB_Tree Nat) = true ∧
      isEmpty (RB_Tree.empty : RB_Tree Nat) = true ∧
      operator_eq false (⟨NIL, 1, 0⟩ : RB_Tree Nat) RB_Tree.empty = false ∧
      operator_eq false (RB_Tree.empty : RB_Tree Nat) ⟨NIL, 1, 0⟩ = false := by
  decide

/-- C19: `leftRotate` about a real node whose right child is the sentinel, and `rightRotate`
about a real node whose left child is the sentinel, end by the `throw` with the subtree at
the pivot as it was (the links, colours and keys outside that subtree and the counters are
not written by a rotation that throws: the `throw` comes before the first assignment).  A rotation about the sentinel returns and changes nothing.  (The last
two parts tie the outcome to the result used by the fix-up loops.) -/
theorem rotation_without_required_child (c : Color) (a b : RB_Node α) (k : α)
    (t : RB_Node α) :
    (leftRotate (node c a k NIL) = none ∧
      leftRotate_outcome (node c a k NIL) = RotateOutcome.thrown (node c a k NIL)) ∧
    (rightRotate (node c NIL k b) = none ∧
      rightRotate_outcome (node c NIL k b) = RotateOutcome.thrown (node c NIL k b)) ∧
    (leftRotate (NIL : RB_Node α) = some NIL ∧
      leftRotate_outcome (NIL : RB_Node α) = RotateOutcome.returned NIL) ∧
    (rightRotate (NIL : RB_Node α) = some NIL ∧
      rightRotate_outcome (NIL : RB_Node α) = RotateOutcome.returned NIL) ∧
    (leftRotate t = none ↔ leftRotate_outcome t = RotateOutcome.thrown t) ∧
    (rightRotate t = none ↔ rightRotate_outcome t = RotateOutcome.thrown t) := by
  refine ⟨⟨rfl, rfl⟩, ⟨rfl, rfl⟩, ⟨rfl, rfl⟩, ⟨rfl, rfl⟩, ?_, ?_⟩
  · rcases t with _ | ⟨tc, tl, tk, _ | ⟨rc, rl, rk, rr⟩⟩ <;>
      simp [leftRotate, leftRotate_outcome]
  · rcases t with _ | ⟨tc, _ | ⟨lc, ll, lk, lr⟩, tk, tr⟩ <;>
      simp [rightRotate, rightRotate_outcome]

/-- C20: `getTreeHeight()` is -1 for every empty tree; the newly constructed tree is empty
with both counters 0; for a tree whose root is a real node it is 1 + the maximum of the
heights of the root's left and right subtrees, which is the number of edges on a longest
path from the root down to a leaf. -/
theorem getTreeHeight_spec (nr nb : Nat) (c : Color) (l r : RB_Node α) (k : α) :
    getTreeHeight (⟨NIL, nr, nb⟩ : RB_Tree α) = -1 ∧
      isEmpty (⟨NIL, nr, nb⟩ : RB_Tree α) = true ∧
      isEmpty (RB_Tree.empty : RB_Tree α) = true ∧
      getNumRedNodes (RB_Tree.empty : RB_Tree α) = 0 ∧
      getNumBlackNodes (RB_Tree.empty : RB_Tree α) = 0 ∧
      getTreeHeight (RB_Tree.empty : RB_Tree α) = -1 ∧
      isEmpty (⟨node c l k r, nr, nb⟩ : RB_Tree α) = false ∧
      getTreeHeight (⟨node c l k r, nr, nb⟩ : RB_Tree α) =
        1 + max (calculateSubtreeHeight l) (calculateSubtreeHeight r) ∧
      getTreeHeight (⟨node c l k r, nr, nb⟩ : RB_Tree α) = (longestPath (node c l k r) : Int) := by
  refine ⟨rfl, rfl, rfl, rfl, rfl, rfl, rfl, ?_, height_eq_longestPath _ rfl⟩
  simp only [getTreeHeight, calculateSubtreeHeight, maximum]
  split <;> omega

/-! ## Rotations, comparison and exact copies -/

theorem ascendingColored_zip_congr {t1 t2 : RB_Node α}
    (h : ascendingColored t1 = ascendingColored t2) (path : List (Frame α)) :
    ascendingColored (zip t1 path) = ascendingColored (zip t2 path) := by
  induction path generalizing t1 t2 with
  | nil => exact h
  | cons f rest ih =>
    cases f <;> exact ih (by simp [Frame.plug, ascendingColored, h])

theorem countRed_zip_congr {t1 t2 : RB_Node α} (h : countRed t1 = countRed t2)
    (path : List (Frame α)) : countRed (zip t1 path) = countRed (zip t2 path) := by
  rw [countRed_zip, countRed_zip, h]

theorem countBlack_zip_congr {t1 t2 : RB_Node α} (h : countBlack t1 = countBlack t2)
    (path : List (Frame α)) : countBlack (zip t1 path) = countBlack (zip t2 path) := by
  rw [countBlack_zip, countBlack_zip, h]

theorem descending_eq_reverse (t : RB_Node α) : descending t = (ascending t).reverse := by
  induction t with
  | NIL => rfl
  | node c l k r ihl ihr => simp [descending, ascending, ihl, ihr]

theorem compareSubtrees_iff [LinearOrder α] (t1 : RB_Node α) :
    ∀ t2 : RB_Node α,
      compareSubtrees t1 t2 = true ↔ t1.isNIL = false ∧ sameShapeAndKeys t1 t2 := by
  induction t1 with
  | NIL => intro t2; simp [compareSubtrees, RB_Node.isNIL]
  | node c1 l1 k1 r1 ihl ihr =>
    intro t2
    cases t2 with
    | NIL => simp [compareSubtrees, sameShapeAndKeys]
    | node c2 l2 k2 r2 =>
      have hl : ((l1.isNIL && l2.isNIL) || (!l1.isNIL && !l2.isNIL && compareSubtrees l1 l2)) =
          true ↔ sameShapeAndKeys l1 l2 := by
        have := ihl l2
        cases l1 <;> cases l2 <;> simp_all [RB_Node.isNIL, sameShapeAndKeys, compareSubtrees]
      have hr : ((r1.isNIL && r2.isNIL) || (!r1.isNIL && !r2.isNIL && compareSubtrees r1 r2)) =
          true ↔ sameShapeAndKeys r1 r2 := by
        have := ihr r2
        cases r1 <;> cases r2 <;> simp_all [RB_Node.isNIL, sameShapeAndKeys, compareSubtrees]
      have hn : (node c1 l1 k1 r1).isNIL = false := rfl
      simp only [compareSubtrees, Bool.and_eq_true, decide_eq_true_eq, hl, hr, hn,
        sameShapeAndKeys, true_and, and_assoc]

theorem operator_eq_iff [LinearOrder α] (a b : RB_Tree α) :
    operator_eq false a b = true ↔
      a.numRedNodes = b.numRedNodes ∧ a.numBlackNodes = b.numBlackNodes ∧
        sameShapeAndKeys a.root b.root := by
  have h := compareSubtrees_iff a.root b.root
  have hroot : ((a.root.isNIL && b.root.isNIL) ||
      (!a.root.isNIL && !b.root.isNIL && compareSubtrees a.root b.root)) = true ↔
      sameShapeAndKeys a.root b.root := by
    cases ha : a.root <;> cases hb : b.root <;>
      simp_all [RB_Node.isNIL, sameShapeAndKeys, compareSubtrees]
  simp only [operator_eq, Bool.not_false, if_true, Bool.and_eq_true, decide_eq_true_eq, hroot,
    and_assoc]

theorem sameShapeAndKeys_refl (t : RB_Node α) : sameShapeAndKeys t t := by
  induction t with
  | NIL => trivial
  | node c l k r ihl ihr => exact ⟨rfl, ihl, ihr⟩

theorem copyTree_exact [LinearOrder α] (t : RB_Node α) (ho : ordered t)
    (hn : (ascending t).Nodup) : copyTree t = t := by
  induction t with
  | NIL => rfl
  | node c l k r ihl ihr =>
    obtain ⟨hl, hr, hol, hor⟩ := ho
    simp only [ascending, List.nodup_append, List.nodup_cons] at hn
    obtain ⟨hnl, ⟨hkr, hnr⟩, hdis⟩ := hn
    have hkl : k ∉ ascending l := fun hmem => hdis hmem (List.mem_cons_self k _)
    simp only [copyTree, ihl hol hnl, ihr hor hnr]
    have h1 : copyTree_link (node c NIL k NIL) l = node c l k NIL := by
      cases l with
      | NIL => rfl
      | node lc ll lk lr =>
        have hmem : lk ∈ ascending (node lc ll lk lr) := by simp [ascending]
        have hlt : lk < k := lt_of_le_of_ne (hl lk hmem) (fun e => hkl (e ▸ hmem))
        simp only [copyTree_link, hlt, if_true]
    rw [h1]
    cases r with
    | NIL => cases l <;> rfl
    | node rc rl rk rr =>
      have hmem : rk ∈ ascending (node rc rl rk rr) := by simp [ascending]
      have hge : ¬ rk < k := not_lt.2 (hr rk hmem)
      simp only [copyTree_link, hge, if_false]

/-! ## The claims C21 to C30 -/

/-- C21: inserting 15, 10, 20, 25, 30, 17, 16, 18, 5, 8 in that order into an empty tree
returns a tree whose `getTreeHeight()` is 3 and whose ascending traversal writes
5, 8, 10, 15, 16, 17, 18, 20, 25, 30. -/
theorem scenario_insert_ten_keys :
    (build [Op.insert 15, Op.insert 10, Op.insert 20, Op.insert 25, Op.insert 30, Op.insert 17,
        Op.insert 16, Op.insert 18, Op.insert 5, Op.insert (8 : Nat)]).map
        (fun t => (getTreeHeight t, displayTree Order.ASC t)) =
      some (3, [5, 8, 10, 15, 16, 17, 18, 20, 25, 30]) := by
  decide

/-- C22 as stated fails: on the tree of scenario 1 the call `remove(8)` returns, but it is
not true that it returns false with the height and both counters unchanged (8 is one of the
ten keys inserted). -/
theorem scenario_remove_8_not_a_noop :
    (build [Op.insert 15, Op.insert 10, Op.insert 20, Op.insert 25, Op.insert 30, Op.insert 17,
        Op.insert 16, Op.insert 18, Op.insert 5, Op.insert (8 : Nat)]).bind
        (fun t => (remove 8 t).map (fun p =>
          decide (p.1 = false ∧ getTreeHeight p.2 = getTreeHeight t ∧
            getNumRedNodes p.2 = getNumRedNodes t ∧
            getNumBlackNodes p.2 = getNumBlackNodes t))) = some false := by
  decide

/-- C22 amended: on the tree of scenario 1 the call `remove(8)` returns true (8 is present);
it leaves `getTreeHeight()` at 3 and the black counter at 5, lowers the red counter from 5
to 4, and takes the key 8 out of the ascending traversal.  On the tree on which the driver
makes that call (built by inserting 15, 17, 25, 13, 5, 10, 35, 29 into an empty tree) the
key 8 is absent: there `remove(8)` returns false and leaves the whole tree, hence the height
and both counters, unchanged. -/
theorem scenario_remove_8_removes_the_key :
    (build [Op.insert 15, Op.insert 10, Op.insert 20, Op.insert 25, Op.insert 30, Op.insert 17,
        Op.insert 16, Op.insert 18, Op.insert 5, Op.insert (8 : Nat)]).bind
        (fun t => (remove 8 t).map (fun p =>
          decide (p.1 = true ∧ getTreeHeight t = 3 ∧ getTreeHeight p.2 = 3 ∧
            getNumBlackNodes t = 5 ∧ getNumBlackNodes p.2 = 5 ∧
            getNumRedNodes t = 5 ∧ getNumRedNodes p.2 = 4 ∧
            displayTree Order.ASC p.2 = [5, 10, 15, 16, 17, 18, 20, 25, 30]))) = some true ∧
      (build [Op.insert 15, Op.insert 17, Op.insert 25, Op.insert 13, Op.insert 5,
        Op.insert 10, Op.insert 35, Op.insert (29 : Nat)]).bind
        (fun t => (remove 8 t).map (fun p =>
          decide (p.1 = false ∧ p.2 = t ∧ getTreeHeight p.2 = getTreeHeight t ∧
            getNumRedNodes p.2 = getNumRedNodes t ∧
            getNumBlackNodes p.2 = getNumBlackNodes t))) = some true := by
  decide

/-- C23: starting from the tree of scenario 1, after `remove(8)`, `remove(15)`,
`remove(17)`, `remove(5)`, `remove(35)`, `remove(25)`, `remove(10)` in that order (all the
calls return), `containsKey(13)` is false and the ascending traversal writes exactly
16, 18, 20, 30. -/
theorem scenario_remove_sequence :
    (build [Op.insert 15, Op.insert 10, Op.insert 20, Op.insert 25, Op.insert 30, Op.insert 17,
        Op.insert 16, Op.insert 18, Op.insert 5, Op.insert (8 : Nat), Op.remove 8,
        Op.remove 15, Op.remove 17, Op.remove 5, Op.remove 35, Op.remove 25,
        Op.remove 10]).map (fun t => (containsKey 13 t, displayTree Order.ASC t)) =
      some (false, [16, 18, 20, 30]) := by
  decide

/-- C24: with `t1` built by inserting 15, 10, 20, 30 and `t2` by inserting 17, 21, 25, 13,
the sum `t1 + t2` exists, holds exactly the keys 10, 13, 15, 17, 20, 21, 25, 30 (each once)
and satisfies the invariants: root BLACK, no RED node with a RED child, equal black-heights
(in both wordings), non-decreasing in-order sequence, exact counters, and
`getNumNodes()` = 8 = number of reachable nodes.  A further copy of the sum, as made when
the result is returned by value, is the same tree. -/
theorem scenario_sum_of_two_trees :
    ((build [Op.insert 15, Op.insert 10, Op.insert 20, Op.insert (30 : Nat)]).bind (fun t1 =>
        (build [Op.insert 17, Op.insert 21, Op.insert 25, Op.insert 13]).bind (fun t2 =>
          operator_plus t1 t2))).map
        (fun s => decide (ascending s.root = [10, 13, 15, 17, 20, 21, 25, 30] ∧ Valid s ∧
          RBPathInvariants s.root ∧ (ascending s.root).Sorted (fun a b => a ≤ b) ∧
          getNumNodes s = 8 ∧ size s.root = 8 ∧ copyConstruct s = s)) = some true := by
  decide

/-- C25: for a real pivot whose required child is a real node, at any place `path` of any
tree, `leftRotate` and `rightRotate` return; the former required child takes the pivot's
place with the pivot as its child (the pivot keeps its other subtree and adopts the inner
subtree of that child); keys and colours stay with their nodes, so the in-order sequence of
(key, colour) pairs of the whole tree and the numbers of RED and BLACK nodes are the same
before and after.  The counters are not among the things a rotation writes. -/
theorem rotation_changes_only_links (c c2 : Color) (a b d : RB_Node α) (k k2 : α)
    (path : List (Frame α)) :
    (leftRotate (node c a k (node c2 b k2 d)) = some (node c2 (node c a k b) k2 d) ∧
      ascendingColored (zip (node c2 (node c a k b) k2 d) path) =
        ascendingColored (zip (node c a k (node c2 b k2 d)) path) ∧
      countRed (zip (node c2 (node c a k b) k2 d) path) =
        countRed (zip (node c a k (node c2 b k2 d)) path) ∧
      countBlack (zip (node c2 (node c a k b) k2 d) path) =
        countBlack (zip (node c a k (node c2 b k2 d)) path)) ∧
    (rightRotate (node c (node c2 a k2 b) k d) = some (node c2 a k2 (node c b k d)) ∧
      ascendingColored (zip (node c2 a k2 (node c b k d)) path) =
        ascendingColored (zip (node c (node c2 a k2 b) k d) path) ∧
      countRed (zip (node c2 a k2 (node c b k d)) path) =
        countRed (zip (node c (node c2 a k2 b) k d) path) ∧
      countBlack (zip (node c2 a k2 (node c b k d)) path) =
        countBlack (zip (node c (node c2 a k2 b) k d) path)) := by
  refine ⟨⟨rfl, ascendingColored_zip_congr ?_ path, countRed_zip_congr ?_ path,
    countBlack_zip_congr ?_ path⟩, ⟨rfl, ascendingColored_zip_congr ?_ path,
    countRed_zip_congr ?_ path, countBlack_zip_congr ?_ path⟩⟩
  · simp [ascendingColored]
  · simp only [countRed]; omega
  · simp only [countBlack]; omega
  · simp [ascendingColored]
  · simp only [countRed]; omega
  · simp only [countBlack]; omega

/-- C26: for every tree that satisfies the red-black invariants and every key `k`, the
calls `insert(k)` and `remove(k)` return a tree: they never end in the failure that stands
for the exception of a rotation or for a read through a sentinel sibling `w`.  A rotation
fails exactly when the pivot is a real node whose required child is the sentinel, and every
failure inside `insertFixup` or `deleteFixup` makes the whole call fail; so each rotation
these calls make has a real required child, and each sibling read by `deleteFixup` is a real
node. -/
theorem no_invalid_rotation [LinearOrder α] (k : α) (t : RB_Tree α)
    (h : RBInvariants t.root) :
    (∃ t2 : RB_Tree α, insert k t = some t2) ∧
      (∃ (b : Bool) (t2 : RB_Tree α), remove k t = some (b, t2)) ∧
      (∀ p : RB_Node α, leftRotate p = none ↔ ∃ c a k2, p = node c a k2 NIL) ∧
      (∀ p : RB_Node α, rightRotate p = none ↔ ∃ c k2 b, p = node c NIL k2 b) ∧
      (∀ (x : RB_Node α) (pc : Color) (pk : α) (rest : List (Frame α)) (nr nb : Nat),
        deleteFixupStep x (Frame.inLeft pc pk NIL :: rest) nr nb = none ∧
        deleteFixupStep x (Frame.inRight pc NIL pk :: rest) nr nb = none) := by
  obtain ⟨t2, hins, _⟩ := insert_core k t h
  obtain ⟨b, t3, hrem, _⟩ := remove_core k t h
  refine ⟨⟨t2, hins⟩, ⟨b, t3, hrem⟩, ?_, ?_, ?_⟩
  · intro p
    rcases p with _ | ⟨pc, pl, pk, _ | ⟨rc, rl, rk, rr⟩⟩ <;> simp [leftRotate]
  · intro p
    rcases p with _ | ⟨pc, _ | ⟨lc, ll, lk, lr⟩, pk, pr⟩ <;> simp [rightRotate]
  · intro x pc pk rest nr nb
    constructor <;> simp [deleteFixupStep]

/-- Instance of C26: inserting and removing 12 in a seven-node tree. -/
theorem no_invalid_rotation_witness :
    RBInvariants (⟨node BLACK (node BLACK (node RED NIL 2 NIL) 5 NIL) 10
        (node RED (node BLACK NIL 12 NIL) 15 (node BLACK NIL 20 NIL)), 2, 4⟩ :
          RB_Tree Nat).root ∧
      ((∃ t2 : RB_Tree Nat,
          insert 12 ⟨node BLACK (node BLACK (node RED NIL 2 NIL) 5 NIL) 10
            (node RED (node BLACK NIL 12 NIL) 15 (node BLACK NIL 20 NIL)), 2, 4⟩ = some t2) ∧
        (∃ (b : Bool) (t2 : RB_Tree Nat),
          remove 12 ⟨node BLACK (node BLACK (node RED NIL 2 NIL) 5 NIL) 10
            (node RED (node BLACK NIL 12 NIL) 15 (node BLACK NIL 20 NIL)), 2, 4⟩ =
            some (b, t2)) ∧
        (∀ p : RB_Node Nat, leftRotate p = none ↔ ∃ c a k2, p = node c a k2 NIL) ∧
        (∀ p : RB_Node Nat, rightRotate p = none ↔ ∃ c k2 b, p = node c NIL k2 b) ∧
        (∀ (x : RB_Node Nat) (pc : Color) (pk : Nat) (rest : List (Frame Nat)) (nr nb : Nat),
          deleteFixupStep x (Frame.inLeft pc pk NIL :: rest) nr nb = none ∧
          deleteFixupStep x (Frame.inRight pc NIL pk :: rest) nr nb = none)) :=
  ⟨by decide, no_invalid_rotation 12 _ (by decide)⟩

/-- C27: for two distinct tree objects `a` and `b`, `a == b` is true exactly when the red
counters agree, the black counters agree, and the two trees have the same shape with equal
keys at every corresponding position.  The colours of the nodes are not compared: two trees
that differ only in the colour of the root compare equal. -/
theorem operator_eq_compares_counters_shape_keys [LinearOrder α] (a b : RB_Tree α)
    (c1 c2 : Color) (l r : RB_Node α) (k : α) (nr nb : Nat) :
    (operator_eq false a b = true ↔
      getNumRedNodes a = getNumRedNodes b ∧ getNumBlackNodes a = getNumBlackNodes b ∧
        sameShapeAndKeys a.root b.root) ∧
      operator_eq false ⟨node c1 l k r, nr, nb⟩ ⟨node c2 l k r, nr, nb⟩ = true ∧
      (operator_ne false a b = !operator_eq false a b) := by
  refine ⟨operator_eq_iff a b, ?_, rfl⟩
  rw [operator_eq_iff]
  exact ⟨rfl, rfl, rfl, sameShapeAndKeys_refl l, sameShapeAndKeys_refl r⟩

/-- C28: for every tree that satisfies the BST ordering and whose keys are pairwise
distinct, copy-construction and assignment (to any tree `d` satisfying the red-black
invariants) produce exactly the source: the same shape, key and colour at every position
and the same counters (exact when those of the source are), so that `copy(t) == t` holds.
`copyTree` links a copied node under its parent by comparing keys: to the left when its key
is smaller than the parent's, to the right otherwise. -/
theorem copy_of_distinct_keys_exact [LinearOrder α] (t d : RB_Tree α) (ho : ordered t.root)
    (hn : (ascending t.root).Nodup) (hd : RBInvariants d.root) :
    copyConstruct t = t ∧ operator_assign false d t = some t ∧
      operator_eq false (copyConstruct t) t = true ∧
      (countersExact t → countersExact (copyConstruct t)) ∧
      (∀ (pc c : Color) (pl pr l r : RB_Node α) (pk k : α),
        copyTree_link (node pc pl pk pr) (node c l k r) =
          if k < pk then node pc (node c l k r) pk pr else node pc pl pk (node c l k r)) := by
  have hcopy : copyTree t.root = t.root := copyTree_exact t.root ho hn
  have h1 : copyConstruct t = t := by
    obtain ⟨root, nr, nb⟩ := t
    simp only at hcopy
    simp only [copyConstruct, hcopy]
  obtain ⟨d2, hd2, _, _⟩ := destroyTree_spec d hd
  refine ⟨h1, ?_, ?_, ?_, ?_⟩
  · simp only [operator_assign, hd2]
    exact congrArg some h1
  · rw [h1, operator_eq_iff]
    exact ⟨rfl, rfl, sameShapeAndKeys_refl _⟩
  · intro hc
    rw [h1]; exact hc
  · intro pc c pl pr l r pk k
    rfl

/-- Instance of C28: copying the seven-node tree with keys 2, 5, 10, 12, 15, 20 over a
one-node tree. -/
theorem copy_of_distinct_keys_exact_witness :
    ordered (⟨node BLACK (node BLACK (node RED NIL 2 NIL) 5 NIL) 10
        (node RED (node BLACK NIL 12 NIL) 15 (node BLACK NIL 20 NIL)), 2, 4⟩ :
          RB_Tree Nat).root ∧
      (ascending (⟨node BLACK (node BLACK (node RED NIL 2 NIL) 5 NIL) 10
        (node RED (node BLACK NIL 12 NIL) 15 (node BLACK NIL 20 NIL)), 2, 4⟩ :
          RB_Tree Nat).root).Nodup ∧
      RBInvariants (⟨node BLACK NIL 7 NIL, 0, 1⟩ : RB_Tree Nat).root ∧
      (copyConstruct (⟨node BLACK (node BLACK (node RED NIL 2 NIL) 5 NIL) 10
          (node RED (node BLACK NIL 12 NIL) 15 (node BLACK NIL 20 NIL)), 2, 4⟩ : RB_Tree Nat) =
          ⟨node BLACK (node BLACK (node RED NIL 2 NIL) 5 NIL) 10
            (node RED (node BLACK NIL 12 NIL) 15 (node BLACK NIL 20 NIL)), 2, 4⟩ ∧
        operator_assign false ⟨node BLACK NIL 7 NIL, 0, 1⟩
          (⟨node BLACK (node BLACK (node RED NIL 2 NIL) 5 NIL) 10
            (node RED (node BLACK NIL 12 NIL) 15 (node BLACK NIL 20 NIL)), 2, 4⟩ : RB_Tree Nat) =
          some ⟨node BLACK (node BLACK (node RED NIL 2 NIL) 5 NIL) 10
            (node RED (node BLACK NIL 12 NIL) 15 (node BLACK NIL 20 NIL)), 2, 4⟩ ∧
        operator_eq false
          (copyConstruct (⟨node BLACK (node BLACK (node RED NIL 2 NIL) 5 NIL) 10
            (node RED (node BLACK NIL 12 NIL) 15 (node BLACK NIL 20 NIL)), 2, 4⟩ : RB_Tree Nat))
          ⟨node BLACK (node BLACK (node RED NIL 2 NIL) 5 NIL) 10
            (node RED (node BLACK NIL 12 NIL) 15 (node BLACK NIL 20 NIL)), 2, 4⟩ = true ∧
        (countersExact (⟨node BLACK (node BLACK (node RED NIL 2 NIL) 5 NIL) 10
            (node RED (node BLACK NIL 12 NIL) 15 (node BLACK NIL 20 NIL)), 2, 4⟩ : RB_Tree Nat) →
          countersExact (copyConstruct (⟨node BLACK (node BLACK (node RED NIL 2 NIL) 5 NIL) 10
            (node RED (node BLACK NIL 12 NIL) 15 (node BLACK NIL 20 NIL)), 2, 4⟩ :
              RB_Tree Nat))) ∧
        (∀ (pc c : Color) (pl pr l r : RB_Node Nat) (pk k : Nat),
          copyTree_link (node pc pl pk pr) (node c l k r) =
            if k < pk then node pc (node c l k r) pk pr
            else node pc pl pk (node c l k r))) :=
  ⟨by decide, by decide, by decide, copy_of_distinct_keys_exact _ _ (by decide) (by decide)
    (by decide)⟩

/-- C29: for every tree, the key sequence written by `displayTree(Order::DES)` is exactly
the reverse of the one written by `displayTree(Order::ASC)`; the ASC sequence is the
in-order (left, node, right) sequence of the keys of all the nodes; an empty tree writes
nothing in either order. -/
theorem displayTree_orders (t : RB_Tree α) (ord : Order) (nr nb : Nat) :
    displayTree Order.DES t = (displayTree Order.ASC t).reverse ∧
      displayTree Order.ASC t = ascending t.root ∧
      (displayTree Order.ASC t).length = size t.root ∧
      displayTree ord (⟨NIL, nr, nb⟩ : RB_Tree α) = [] := by
  obtain ⟨root, n1, n2⟩ := t
  have hasc : displayTree Order.ASC (⟨root, n1, n2⟩ : RB_Tree α) = ascending root := by
    cases root <;> rfl
  have hdes : displayTree Order.DES (⟨root, n1, n2⟩ : RB_Tree α) = descending root := by
    cases root <;> rfl
  refine ⟨?_, hasc, ?_, rfl⟩
  · rw [hasc, hdes, descending_eq_reverse]
  · rw [hasc, size_eq_length]

/-- C30: for every tree that satisfies the red-black invariants and every key `k`, the calls
`insert(k)`, `remove(k)` and `destroyTree()` return, with the loop bounds built into them:
the loop of `insertFixup` and of `deleteFixup` is given one test more than the depth of the
working node, and the loop of `destroyTree` one test more than the number of nodes.  Each
iteration of the fix-up loops returns a state in which the loop has ended or the working
node is strictly nearer to the root, and each iteration of the `destroyTree` loop (a call
`RB_delete(root)`) removes exactly one node and keeps the invariants. -/
theorem operations_terminate [LinearOrder α] (k : α) (t : RB_Tree α)
    (h : RBInvariants t.root) :
    (∃ t2 : RB_Tree α, insert k t = some t2) ∧
      (∃ (b : Bool) (t2 : RB_Tree α), remove k t = some (b, t2)) ∧
      (∃ t2 : RB_Tree α, destroyTree t = some t2 ∧ isEmpty t2 = true) ∧
      (t.root.isNIL = false →
        ∃ t2 : RB_Tree α, RB_delete t.root [] t.numRedNodes t.numBlackNodes = some t2 ∧
          size t2.root + 1 = size t.root ∧ RBInvariants t2.root) ∧
      (∀ (x : RB_Node α) (path : List (Frame α)) (nr nb : Nat), InsertInv x path →
        parentColor path = RED →
        ∃ x2 path2 nr2 nb2, insertFixupStep x path nr nb = some (x2, path2, nr2, nb2) ∧
          InsertInv x2 path2 ∧ (parentColor path2 = RED → path2.length < path.length)) ∧
      (∀ (x : RB_Node α) (path : List (Frame α)) (nr nb : Nat), DeleteInv x path →
        path ≠ [] → x.color = BLACK →
        ∃ x2 path2 nr2 nb2, deleteFixupStep x path nr nb = some (x2, path2, nr2, nb2) ∧
          DeleteInv x2 path2 ∧
          (path2 ≠ [] ∧ x2.color = BLACK → path2.length < path.length)) := by
  obtain ⟨t2, hins, _⟩ := insert_core k t h
  obtain ⟨b, t3, hrem, _⟩ := remove_core k t h
  obtain ⟨t4, hdes, hnil, _⟩ := destroyTree_spec t h
  refine ⟨⟨t2, hins⟩, ⟨b, t3, hrem⟩, ⟨t4, hdes, ?_⟩, ?_, ?_, ?_⟩
  · simp only [isEmpty, hnil]
  · intro hreal
    obtain ⟨c, l, k2, r, hroot⟩ := isNIL_eq_false_iff.1 hreal
    have hcur : CursorInv (node c l k2 r) [] := hroot ▸ CursorInv.root h
    obtain ⟨t5, hdel, hrb, hasc, _⟩ := RB_delete_spec t.numRedNodes t.numBlackNodes hcur
    refine ⟨t5, hroot ▸ hdel, ?_, hrb⟩
    have e := congrArg List.length hasc
    simp only [pathLeft, pathRight, List.nil_append, List.append_nil, List.length_append] at e
    rw [hroot, size_eq_length, e]
    simp only [size, size_eq_length]
  · intro x path nr nb hinv hp
    obtain ⟨x2, path2, nr2, nb2, hs, hi, hl, _⟩ := insertFixupStep_spec nr nb hinv hp
    exact ⟨x2, path2, nr2, nb2, hs, hi, hl⟩
  · intro x path nr nb hinv hne hx
    obtain ⟨x2, path2, nr2, nb2, hs, hi, hl, _⟩ := deleteFixupStep_spec nr nb hinv hne hx
    exact ⟨x2, path2, nr2, nb2, hs, hi, hl⟩

/-- Instance of C30: the three operations on a seven-node tree, with key 12. -/
theorem operations_terminate_witness :
    RBInvariants (⟨node BLACK (node BLACK (node RED NIL 2 NIL) 5 NIL) 10
        (node RED (node BLACK NIL 12 NIL) 15 (node BLACK NIL 20 NIL)), 2, 4⟩ :
          RB_Tree Nat).root ∧
      ((∃ t2 : RB_Tree Nat,
          insert 12 ⟨node BLACK (node BLACK (node RED NIL 2 NIL) 5 NIL) 10
            (node RED (node BLACK NIL 12 NIL) 15 (node BLACK NIL 20 NIL)), 2, 4⟩ = some t2) ∧
        (∃ (b : Bool) (t2 : RB_Tree Nat),
          remove 12 ⟨node BLACK (node BLACK (node RED NIL 2 NIL) 5 NIL) 10
            (node RED (node BLACK NIL 12 NIL) 15 (node BLACK NIL 20 NIL)), 2, 4⟩ =
            some (b, t2)) ∧
        (∃ t2 : RB_Tree Nat,
          destroyTree ⟨node BLACK (node BLACK (node RED NIL 2 NIL) 5 NIL) 10
            (node RED (node BLACK NIL 12 NIL) 15 (node BLACK NIL 20 NIL)), 2, 4⟩ = some t2 ∧
            isEmpty t2 = true) ∧
        ((⟨node BLACK (node BLACK (node RED NIL 2 NIL) 5 NIL) 10
            (node RED (node BLACK NIL 12 NIL) 15 (node BLACK NIL 20 NIL)), 2, 4⟩ :
              RB_Tree Nat).root.isNIL = false →
          ∃ t2 : RB_Tree Nat,
            RB_delete (⟨node BLACK (node BLACK (node RED NIL 2 NIL) 5 NIL) 10
                (node RED (node BLACK NIL 12 NIL) 15 (node BLACK NIL 20 NIL)), 2, 4⟩ :
                  RB_Tree Nat).root [] 2 4 = some t2 ∧
              size t2.root + 1 = size (⟨node BLACK (node BLACK (node RED NIL 2 NIL) 5 NIL) 10
                (node RED (node BLACK NIL 12 NIL) 15 (node BLACK NIL 20 NIL)), 2, 4⟩ :
                  RB_Tree Nat).root ∧ RBInvariants t2.root) ∧
        (∀ (x : RB_Node Nat) (path : List (Frame Nat)) (nr nb : Nat), InsertInv x path →
          parentColor path = RED →
          ∃ x2 path2 nr2 nb2, insertFixupStep x path nr nb = some (x2, path2, nr2, nb2) ∧
            InsertInv x2 path2 ∧ (parentColor path2 = RED → path2.length < path.length)) ∧
        (∀ (x : RB_Node Nat) (path : List (Frame Nat)) (nr nb : Nat), DeleteInv x path →
          path ≠ [] → x.color = BLACK →
          ∃ x2 path2 nr2 nb2, deleteFixupStep x path nr nb = some (x2, path2, nr2, nb2) ∧
            DeleteInv x2 path2 ∧
            (path2 ≠ [] ∧ x2.color = BLACK → path2.length < path.length))) :=
  ⟨by decide, operations_terminate 12 _ (by decide)⟩

end RB
